import Mathlib

/-!
Un-instrumentation engine of orchestrion (`internal/instrument/uninstrument.go`)

A shallow embedding of the statement-list passes `removeStartEndWrap` and
`removeStartEndInstrument`, of the decoration helpers `removeDecl` and
`removeDecoration`, of the statement matcher `removeUseMiddleware` and of the
per-declaration walk of `UninstrumentFile`.

Go slices are modelled with their backing array: `removeStartEndWrap` edits the
slice in place while a `range` loop is still running over the original slice
header, so the model keeps the statement objects (addressed by pointer), the
backing array of pointers and the current length apart.  An index or slice
expression that is out of range makes the function return `none` (a Go panic).
-/

namespace Orchestrion

/-! ## Data model -/

/-- Go's `strings.HasPrefix(s, pre)`. -/
def HasPrefix (s pre : String) : Bool := pre.data.isPrefixOf s.data

/-- The type `dst.Decorations`, a `[]string`. -/
abbrev Decorations := List String

/-- The fields of `dst.Ident` that the code reads. -/
structure Ident where
  Name : String
  Path : String

mutual
/-- Expressions (`dst.Expr`), with the shapes the code distinguishes. -/
inductive Expr where
  | CallExpr (Fun : Expr) (Args : List Expr)
  | CompositeLit (Elts : List Expr)
  | KeyValueExpr (Key : Expr) (Value : Expr)
  | FuncLit (Body : List Stmt)
  | SelectorExpr (X : Expr) (Sel : Ident)
  | IdentExpr (id : Ident)
  | other (tag : Nat)
/-- Statement shapes (`dst.Stmt` without its decorations). -/
inductive StmtKind where
  | ExprStmt (X : Expr)
  | AssignStmt (Lhs : List Expr) (Rhs : List Expr)
  | other (tag : Nat)
/-- A statement: its `Decorations().Start`, its `Decorations().End` and its shape. -/
inductive Stmt where
  | mk (Start : Decorations) (End : Decorations) (kind : StmtKind)
end

/-- Leading decorations, `s.Decorations().Start`. -/
def Stmt.Start : Stmt → Decorations
  | .mk s _ _ => s

/-- Trailing decorations, `s.Decorations().End`. -/
def Stmt.End : Stmt → Decorations
  | .mk _ e _ => e

/-- Shape of the statement. -/
def Stmt.kind : Stmt → StmtKind
  | .mk _ _ k => k

/-- The call `s.Decorations().Start.Replace(ds...)`. -/
def Stmt.replaceStart (s : Stmt) (ds : Decorations) : Stmt :=
  .mk ds s.End s.kind

/-- The call `s.Decorations().End.Replace(ds...)`. -/
def Stmt.replaceEnd (s : Stmt) (ds : Decorations) : Stmt :=
  .mk s.Start ds s.kind

instance : Inhabited Stmt := ⟨.mk [] [] (.other 0)⟩

/-- Top-level declarations of a file.  The field `Body` of a `dst.FuncDecl` is a pointer:
it is `none` (nil) for a function declared without a body. -/
inductive Decl where
  | FuncDecl (Body : Option (List Stmt))
  | other (tag : Nat)

/-- What `uninstrument.go` takes from the rest of the package: the five marker
constants, and the rule tables `unwrappers` and `removers`.  An entry of
`unwrappers` is the effect of `dst.Inspect(s, rule)` on the statement `s`. -/
structure Rules where
  dd_startwrap : String
  dd_endwrap : String
  dd_startinstrument : String
  dd_endinstrument : String
  dd_instrumented : String
  unwrappers : List (Stmt → Stmt)
  removers : List (Stmt → Bool)

/-- Modelled from the spec: `hasLabel` is declared outside `uninstrument.go`; markers are
"fixed string prefixes recognized verbatim inside decoration/comment strings", "only
matched by prefix", so a label is present when some entry starts with it. -/
def hasLabel (label : String) (decs : List String) : Bool :=
  decs.any (fun d => HasPrefix d label)

/-! ## `removeDecl` and `removeDecoration` -/

/-- The function `removeDecl`: the loop appends to `rds` every entry that does not start
with `pre`. -/
def removeDecl (pre : String) (ds : Decorations) : List String :=
  ds.foldl (fun rds d => if HasPrefix d pre then rds else rds ++ [d]) []

/-- The function `removeDecoration`: both decoration slots are replaced. -/
def removeDecoration (deco : String) (s : Stmt) : Stmt :=
  (s.replaceStart (removeDecl deco s.Start)).replaceEnd (removeDecl deco s.End)

/-! ## `removeStartEndInstrument` -/

/-- Outcome of one run of the `range` loop of `removeStartEndInstrument`. -/
inductive ScanResult where
  | ret (list : List Stmt)
  | recurse (list : List Stmt)

/-- The `range` loop of `removeStartEndInstrument`.  `done` holds the statements already
visited (as the loop left them), `start` the variable `start`, and the last argument the
statements still to visit; the loop index is `done.length`. -/
def scanInstrument (R : Rules) (done : List Stmt) (start : Nat) : List Stmt → ScanResult
  | [] => .ret done
  | stmt :: rest =>
    let i := done.length
    let start := if hasLabel R.dd_startinstrument stmt.Start then i else start
    if hasLabel R.dd_endinstrument stmt.Start then
      let list := done ++ removeDecoration R.dd_endinstrument stmt :: rest
      .recurse (list.take start ++ list.drop i)
    else if hasLabel R.dd_endinstrument stmt.End then
      .recurse ((done ++ stmt :: rest).take start)
    else if hasLabel R.dd_instrumented stmt.Start then
      scanInstrument R (done ++ [removeDecoration R.dd_instrumented stmt]) start rest
    else
      scanInstrument R (done ++ [stmt]) start rest

/-- The recursion of `removeStartEndInstrument`, with a bound on its depth. -/
def removeStartEndInstrumentFuel (R : Rules) : Nat → List Stmt → List Stmt
  | 0, list => list
  | fuel + 1, list =>
    match scanInstrument R [] 0 list with
    | .ret l => l
    | .recurse l => removeStartEndInstrumentFuel R fuel l

/-- The function `removeStartEndInstrument`.  Every recursive call strips or drops a
statement carrying `dd_endinstrument`, so `list.length + 1` levels are enough
(`removeStartEndInstrument_unfold`). -/
def removeStartEndInstrument (R : Rules) (list : List Stmt) : List Stmt :=
  removeStartEndInstrumentFuel R (list.length + 1) list

/-! ## `removeStartEndWrap` -/

/-- A slice `[]dst.Stmt` and the statement objects it points to: `heap p` is the object at
pointer `p`, `arr k` the pointer in slot `k` of the backing array, `len` the length. -/
structure WrapState where
  heap : Nat → Stmt
  arr : Nat → Nat
  len : Nat

/-- The statements of the slice, `list[0], ..., list[len-1]`. -/
def WrapState.toList (st : WrapState) : List Stmt :=
  (List.range st.len).map (fun k => st.heap (st.arr k))

/-- The slice made of the statements of `l`, each a distinct object. -/
def WrapState.ofList (l : List Stmt) : WrapState :=
  { heap := fun p => l.getD p default, arr := fun k => k, len := l.length }

/-- Assignment through a pointer: `*p = f(*p)`. -/
def WrapState.modify (st : WrapState) (p : Nat) (f : Stmt → Stmt) : WrapState :=
  { st with heap := fun q => if q = p then f (st.heap p) else st.heap q }

/-- The statement `l = append(l[:i], l[i+1:]...)` for `i < len(l)`: the slots after `i`
move one place down inside the same backing array, the last slot keeps its content. -/
def WrapState.delete (st : WrapState) (i : Nat) : WrapState :=
  { st with
    arr := fun k => if i ≤ k ∧ k + 1 < st.len then st.arr (k + 1) else st.arr k
    len := st.len - 1 }

/-- The loop `for _, unwrap := range unwrappers { dst.Inspect(s, unwrap) }` on one
statement: the rules are run over it one after the other. -/
def Rules.unwrapStmt (R : Rules) (s : Stmt) : Stmt :=
  R.unwrappers.foldl (fun s u => u s) s

/-- The closure `unwrap`, on the slice `list[lo:lo+n]`: every rule is run over every
statement. -/
def unwrap (R : Rules) : Nat → Nat → WrapState → WrapState
  | _, 0, st => st
  | lo, n + 1, st => unwrap R (lo + 1) n (st.modify (st.arr lo) R.unwrapStmt)

/-- The loop `for _, rm := range removers` inside `remove`, at index `i`: `l[i]` is read
for each rule, the first rule that matches deletes slot `i` and ends the loop. -/
def tryRemovers (i : Nat) : List (Stmt → Bool) → WrapState → Option WrapState
  | [], st => some st
  | rm :: rms, st =>
    if i < st.len then
      if rm (st.heap (st.arr i)) then some (st.delete i) else tryRemovers i rms st
    else none

/-- The closure `remove`: `n` iterations `i, i+1, ...` of `for i := left; i < right; i++`. -/
def remove (R : Rules) : Nat → Nat → WrapState → Option WrapState
  | _, 0, st => some st
  | i, n + 1, st =>
    match tryRemovers i R.removers st with
    | none => none
    | some st1 => remove R (i + 1) n st1

/-- The inner loop `for j, stmt := range list[i:]`: `n` iterations left, starting at `j`.
The ranged slice shares the backing array, so slot `i+j` is read when it is visited. -/
def wrapInner (R : Rules) (i : Nat) : Nat → Nat → WrapState → Option WrapState
  | _, 0, st => some st
  | j, n + 1, st =>
    let q := st.arr (i + j)
    if hasLabel R.dd_endwrap (st.heap q).Start then
      let st1 := st.modify q (fun s => s.replaceStart (removeDecl R.dd_endwrap s.Start))
      match remove R i j (unwrap R i j st1) with
      | none => none
      | some st2 => wrapInner R i (j + 1) n st2
    else wrapInner R i (j + 1) n st

/-- The outer loop `for i, stmt := range list`: `n` iterations left, starting at `i`.  The
loop runs over the slice header it was started with, so `n` does not follow `len`. -/
def wrapOuter (R : Rules) : Nat → Nat → WrapState → Option WrapState
  | _, 0, st => some st
  | i, n + 1, st =>
    let p := st.arr i
    if hasLabel R.dd_startwrap (st.heap p).Start then
      let st1 := st.modify p (fun s => s.replaceStart (removeDecl R.dd_startwrap s.Start))
      if hasLabel R.dd_endwrap (st1.heap p).End then
        let st2 := st1.modify p (fun s => s.replaceEnd (removeDecl R.dd_endwrap s.End))
        match remove R i 1 (unwrap R i 1 st2) with
        | none => none
        | some st3 => wrapOuter R (i + 1) n st3
      else if i ≤ st1.len then
        match wrapInner R i 0 (st1.len - i) st1 with
        | none => none
        | some st3 => wrapOuter R (i + 1) n st3
      else none
    else wrapOuter R (i + 1) n st

/-- The function `removeStartEndWrap`; `none` stands for a run-time panic. -/
def removeStartEndWrap (R : Rules) (list : List Stmt) : Option (List Stmt) :=
  (wrapOuter R 0 list.length (WrapState.ofList list)).map WrapState.toList

/-! ## `removeUseMiddleware` -/

/-- The function `removeUseMiddleware`.  The helper `funcIdent` is declared outside
`uninstrument.go` and is taken as a parameter. -/
def removeUseMiddleware (funcIdent : Expr → Option Ident) (stmt : Stmt) (name : String) :
    Bool :=
  match stmt.kind with
  | .ExprStmt (.CallExpr (.SelectorExpr _ Sel) Args) =>
    if Sel.Name ≠ "Use" then false
    else if Args.length ≠ 1 then false
    else
      match Args[0]? with
      | none => false
      | some arg =>
        match funcIdent arg with
        | none => false
        | some fn =>
          decide (fn.Name = name) && decide (fn.Path = "github.com/datadog/orchestrion/instrument")
  | _ => false

/-! ## The per-declaration walk of `UninstrumentFile` -/

/-- Runs `f` over a list, left to right; a panic in one call ends the run. -/
def forEach {α : Type} (f : α → Option α) : List α → Option (List α)
  | [] => some []
  | a :: as =>
    match f a with
    | none => none
    | some b =>
      match forEach f as with
      | none => none
      | some bs => some (b :: bs)

/-- The two passes in the order the driver runs them on a statement list:
`removeStartEndWrap`, then `removeStartEndInstrument`. -/
def removePasses (R : Rules) (list : List Stmt) : Option (List Stmt) :=
  match removeStartEndWrap R list with
  | none => none
  | some l => some (removeStartEndInstrument R l)

/-- Body of `for _, v := range compLit.Elts`: a key/value element whose value is a
function literal has the passes run on that literal's body. -/
def walkElt (R : Rules) : Expr → Option Expr
  | .KeyValueExpr k (.FuncLit body) =>
    match removePasses R body with
    | none => none
    | some b => some (.KeyValueExpr k (.FuncLit b))
  | e => some e

/-- Body of `for _, expr := range stmt.Rhs`. -/
def walkRhs (R : Rules) : Expr → Option Expr
  | .CompositeLit elts =>
    match forEach (walkElt R) elts with
    | none => none
    | some es => some (.CompositeLit es)
  | .FuncLit body =>
    match removePasses R body with
    | none => none
    | some b => some (.FuncLit b)
  | e => some e

/-- Body of `for _, stmt := range decl.Body.List`, the type switch on the statement. -/
def walkStmt (R : Rules) : Stmt → Option Stmt
  | .mk s e (.AssignStmt lhs rhs) =>
    match forEach (walkRhs R) rhs with
    | none => none
    | some r => some (.mk s e (.AssignStmt lhs r))
  | .mk s e (.ExprStmt (.CallExpr (.FuncLit body) args)) =>
    match removePasses R body with
    | none => none
    | some b => some (.mk s e (.ExprStmt (.CallExpr (.FuncLit b) args)))
  | stmt => some stmt

/-- What `UninstrumentFile` does to the body of one function declaration. -/
def uninstrumentBody (R : Rules) (body : List Stmt) : Option (List Stmt) :=
  match removePasses R body with
  | none => none
  | some l => forEach (walkStmt R) l

/-- Body of `for _, decl := range f.Decls`.  The code reads `decl.Body.List` without a nil
test, so a function declaration without a body ends the run in a panic. -/
def uninstrumentDecl (R : Rules) : Decl → Option Decl
  | .FuncDecl none => none
  | .FuncDecl (some body) =>
    match uninstrumentBody R body with
    | none => none
    | some b => some (.FuncDecl (some b))
  | .other tag => some (.other tag)

/-- The declaration loop of `UninstrumentFile`, between parsing and printing. -/
def UninstrumentFile (R : Rules) (decls : List Decl) : Option (List Decl) :=
  forEach (uninstrumentDecl R) decls

/-! ## Marker predicates used in the statements -/

/-- A decoration entry that starts with one of the five markers. -/
def isMarker (R : Rules) (d : String) : Bool :=
  HasPrefix d R.dd_startwrap || HasPrefix d R.dd_endwrap || HasPrefix d R.dd_startinstrument
    || HasPrefix d R.dd_endinstrument || HasPrefix d R.dd_instrumented

/-- No marker of any kind in either decoration slot of the statement. -/
def Stmt.clean (R : Rules) (s : Stmt) : Prop :=
  hasLabel R.dd_startwrap s.Start = false ∧ hasLabel R.dd_startwrap s.End = false ∧
  hasLabel R.dd_endwrap s.Start = false ∧ hasLabel R.dd_endwrap s.End = false ∧
  hasLabel R.dd_startinstrument s.Start = false ∧ hasLabel R.dd_startinstrument s.End = false ∧
  hasLabel R.dd_endinstrument s.Start = false ∧ hasLabel R.dd_endinstrument s.End = false ∧
  hasLabel R.dd_instrumented s.Start = false ∧ hasLabel R.dd_instrumented s.End = false

/-- An unwrap rule for the worked examples: the statement `other 1` stands for a statement
with a wrapper call, `other 2` for the same statement without the wrapper. -/
def exampleUnwrap : Stmt → Stmt
  | .mk a b (.other 1) => .mk a b (.other 2)
  | s => s

/-- A remover rule for the worked examples: it matches the statement `other 9`. -/
def exampleRemover (s : Stmt) : Bool :=
  match s.kind with
  | .other 9 => true
  | _ => false

/-- The rule tables used in the worked examples: the marker comments of orchestrion,
one unwrap rule and one remover. -/
def exampleRules : Rules where
  dd_startwrap := "//dd:startwrap"
  dd_endwrap := "//dd:endwrap"
  dd_startinstrument := "//dd:startinstrument"
  dd_endinstrument := "//dd:endinstrument"
  dd_instrumented := "//dd:instrumented"
  unwrappers := [exampleUnwrap]
  removers := [exampleRemover]

/-- What the `range` loop of `removeStartEndInstrument` does to a statement it passes
over: the `dd_instrumented` tag is stripped when the leading decorations carry it. -/
def stripInstrumented (R : Rules) (s : Stmt) : Stmt :=
  if hasLabel R.dd_instrumented s.Start then removeDecoration R.dd_instrumented s else s

/-- Number of statements that carry `dd_endinstrument` in one of their slots. -/
def countEnd (R : Rules) (l : List Stmt) : Nat :=
  (l.filter (fun s => hasLabel R.dd_endinstrument s.Start ||
    hasLabel R.dd_endinstrument s.End)).length

/-- The statement carries `dd_endinstrument` in neither slot. -/
def Stmt.noEnd (R : Rules) (s : Stmt) : Prop :=
  hasLabel R.dd_endinstrument s.Start = false ∧ hasLabel R.dd_endinstrument s.End = false

/-- Value of the variable `start` after the loop has visited the statements of the list,
the first of them at index `i`. -/
def startAfter (R : Rules) : Nat → Nat → List Stmt → Nat
  | start, _, [] => start
  | start, i, s :: rest =>
    startAfter R (if hasLabel R.dd_startinstrument s.Start then i else start) (i + 1) rest

/-- One of the five marker constants. -/
def Rules.isLabel (R : Rules) (m : String) : Prop :=
  m = R.dd_startwrap ∨ m = R.dd_endwrap ∨ m = R.dd_startinstrument ∨
    m = R.dd_endinstrument ∨ m = R.dd_instrumented

/-- The relation `Touched R U a b`: the statement `b` is the statement `a` after a number
of the edits the passes make to a statement object: marker entries taken out of one
decoration slot with `removeDecl`, and rules of the table `U` run over it. -/
inductive Touched (R : Rules) (U : List (Stmt → Stmt)) : Stmt → Stmt → Prop where
  | refl (a : Stmt) : Touched R U a a
  | stripStart {a b : Stmt} (m : String) : R.isLabel m → Touched R U a b →
      Touched R U a (b.replaceStart (removeDecl m b.Start))
  | stripEnd {a b : Stmt} (m : String) : R.isLabel m → Touched R U a b →
      Touched R U a (b.replaceEnd (removeDecl m b.End))
  | rule {a b : Stmt} (u : Stmt → Stmt) : u ∈ U → Touched R U a b → Touched R U a (u b)

/-- The relation `Frame P l out`: the list `out` is, statement by statement and in order,
`P`-related to a sub-sequence of `l`. -/
def Frame (P : Stmt → Stmt → Prop) (l out : List Stmt) : Prop :=
  ∃ kept : List Stmt, kept.Sublist l ∧ List.Forall₂ P kept out

/-- The entries of a decoration slot that are not marker strings. -/
def unmarked (R : Rules) (ds : Decorations) : List String :=
  ds.filter (fun d => !isMarker R d)

/-- Invariant of the loops of `removeStartEndWrap` on the list `l`: the slice is not longer
than `l`, every slot of the backing array points to a statement of `l`, the pointers
inside the slice are in increasing order, and each object is the statement of `l` it
started as, up to the edits of `Touched`. -/
structure WrapInv (R : Rules) (l : List Stmt) (st : WrapState) : Prop where
  len_le : st.len ≤ l.length
  arr_lt : ∀ k, k < l.length → st.arr k < l.length
  mono : ∀ a b, a < b → b < st.len → st.arr a < st.arr b
  rel : ∀ p (hp : p < l.length), Touched R R.unwrappers l[p] (st.heap p)

/-- Same statement up to marker entries: same shape, and the same non-marker entries, in
the same order, in each decoration slot. -/
def sameStatement (R : Rules) (a b : Stmt) : Prop :=
  b.kind = a.kind ∧ unmarked R b.Start = unmarked R a.Start ∧
    unmarked R b.End = unmarked R a.End

/-- Same non-marker entries, in the same order, in each decoration slot. -/
def sameDecorations (R : Rules) (a b : Stmt) : Prop :=
  unmarked R b.Start = unmarked R a.Start ∧ unmarked R b.End = unmarked R a.End

/-- A second unwrap rule for the worked examples: it rewrites the statement `other 2`, the
output of `exampleUnwrap`, into `other 3`. -/
def exampleUnwrapNext : Stmt → Stmt
  | .mk a b (.other 2) => .mk a b (.other 3)
  | s => s

/-- The example rule tables with the two unwrap rules, in this order. -/
def chainRules : Rules :=
  { exampleRules with unwrappers := [exampleUnwrap, exampleUnwrapNext] }

/-- What the loops of `removeStartEndWrap` keep fixed as long as no remover rule matches:
the slice still holds the statements of `l` in their order. -/
structure WrapBase (R : Rules) (l : List Stmt) (st : WrapState) : Prop where
  inv : WrapInv R l st
  arr_id : ∀ k, st.arr k = k
  len_eq : st.len = l.length

/-- A region start that is not closed on its own statement: `dd_startwrap` on the leading
decorations and no `dd_endwrap` on the trailing decorations. -/
def Stmt.openStart (R : Rules) (s : Stmt) : Prop :=
  hasLabel R.dd_startwrap s.Start = true ∧ hasLabel R.dd_endwrap s.End = false

/-! ## The positions of the walk, after the claim -/

/-- Follows the claim, position (2): the body of a function literal that is the value of a
key/value element of a composite literal. -/
def reachedInElt : Expr → List (List Stmt)
  | .KeyValueExpr _ (.FuncLit body) => [body]
  | _ => []

/-- Follows the claim, positions (1) and (2), for one right-hand side of an assignment:
the body of the function literal, or the bodies reached in the elements of the composite
literal. -/
def reachedInRhs : Expr → List (List Stmt)
  | .FuncLit body => [body]
  | .CompositeLit elts => elts.foldr (fun x acc => reachedInElt x ++ acc) []
  | _ => []

/-- Follows the claim: the bodies of the function literals of a statement that sit at one
of the positions (1), (2), (3), from left to right. -/
def reachedBodies : Stmt → List (List Stmt)
  | .mk _ _ (.AssignStmt _ rhs) => rhs.foldr (fun x acc => reachedInRhs x ++ acc) []
  | .mk _ _ (.ExprStmt (.CallExpr (.FuncLit body) _)) => [body]
  | _ => []

/-- An element with the body at position (2) emptied. -/
def eraseElt : Expr → Expr
  | .KeyValueExpr k (.FuncLit _) => .KeyValueExpr k (.FuncLit [])
  | x => x

/-- A right-hand side with the bodies at positions (1) and (2) emptied. -/
def eraseRhs : Expr → Expr
  | .FuncLit _ => .FuncLit []
  | .CompositeLit elts => .CompositeLit (elts.map eraseElt)
  | x => x

/-- A statement with the bodies at positions (1), (2), (3) emptied: what is left is
everything the walk must not touch. -/
def eraseReached : Stmt → Stmt
  | .mk s e (.AssignStmt lhs rhs) => .mk s e (.AssignStmt lhs (rhs.map eraseRhs))
  | .mk s e (.ExprStmt (.CallExpr (.FuncLit _) args)) =>
    .mk s e (.ExprStmt (.CallExpr (.FuncLit []) args))
  | s => s

/-- The relation `stmtWalked R s s1`: the statement `s1` is the statement `s` with the body
of every function literal at one of the three positions replaced by what the two passes
return for it, and with nothing else changed. -/
def stmtWalked (R : Rules) (s s1 : Stmt) : Prop :=
  eraseReached s1 = eraseReached s ∧
    List.Forall₂ (fun b b1 => removePasses R b = some b1) (reachedBodies s) (reachedBodies s1)

/-- The relation `declWalked R d d1`: a declaration that is not a function is unchanged; the
body of a function is first run through the two passes, and each statement of the
processed body is then walked. -/
def declWalked (R : Rules) : Decl → Decl → Prop
  | .FuncDecl (some body), d1 =>
    ∃ top out, removePasses R body = some top ∧ List.Forall₂ (stmtWalked R) top out ∧
      d1 = .FuncDecl (some out)
  | .FuncDecl none, _ => False
  | .other tag, d1 => d1 = .other tag

/-- An unwrap rule for the worked examples that descends, as `dst.Inspect` does, into the
function literal on the right-hand side of an assignment and rewrites the statements of
its body. -/
def exampleUnwrapDeep : Stmt → Stmt
  | .mk a b (.AssignStmt lhs [.FuncLit body]) =>
    .mk a b (.AssignStmt lhs [.FuncLit (body.map exampleUnwrap)])
  | s => exampleUnwrap s

/-- The example rule tables with the descending unwrap rule. -/
def deepRules : Rules :=
  { exampleRules with unwrappers := [exampleUnwrapDeep] }

/-! ## Decorations -/

theorem Stmt.eta (s : Stmt) : Stmt.mk s.Start s.End s.kind = s := by
  cases s; rfl

theorem removeDecl_foldl (pre : String) (ds acc : List String) :
    ds.foldl (fun rds d => if HasPrefix d pre then rds else rds ++ [d]) acc =
      acc ++ ds.filter (fun d => !HasPrefix d pre) := by
  induction ds generalizing acc with
  | nil => simp
  | cons d ds ih =>
    simp only [List.foldl_cons, List.filter_cons]
    by_cases h : HasPrefix d pre = true
    · simp [h, ih]
    · simp [h, ih]

theorem removeDecl_eq_filter (pre : String) (ds : List String) :
    removeDecl pre ds = ds.filter (fun d => !HasPrefix d pre) := by
  unfold removeDecl
  rw [removeDecl_foldl]; simp

theorem hasLabel_removeDecl_self (pre : String) (ds : List String) :
    hasLabel pre (removeDecl pre ds) = false := by
  rw [removeDecl_eq_filter, hasLabel, List.any_eq_false]
  intro x hx
  have := (List.mem_filter.1 hx).2
  simpa using this

theorem hasLabel_removeDecl_of_false (lbl pre : String) (ds : List String)
    (h : hasLabel lbl ds = false) : hasLabel lbl (removeDecl pre ds) = false := by
  rw [removeDecl_eq_filter]
  rw [hasLabel, List.any_eq_false] at *
  intro x hx
  exact h x (List.mem_filter.1 hx).1

theorem removeDecl_of_hasLabel_false (pre : String) (ds : List String)
    (h : hasLabel pre ds = false) : removeDecl pre ds = ds := by
  rw [removeDecl_eq_filter, List.filter_eq_self]
  rw [hasLabel, List.any_eq_false] at h
  intro a ha
  simpa using h a ha

theorem removeDecoration_Start (m : String) (s : Stmt) :
    (removeDecoration m s).Start = removeDecl m s.Start := rfl

theorem removeDecoration_End (m : String) (s : Stmt) :
    (removeDecoration m s).End = removeDecl m s.End := rfl

theorem removeDecoration_kind (m : String) (s : Stmt) :
    (removeDecoration m s).kind = s.kind := rfl

theorem stripInstrumented_idem (R : Rules) (s : Stmt) :
    stripInstrumented R (stripInstrumented R s) = stripInstrumented R s := by
  unfold stripInstrumented
  by_cases h : hasLabel R.dd_instrumented s.Start = true
  · simp [h, removeDecoration_Start, hasLabel_removeDecl_self]
  · simp [h]

theorem stripInstrumented_of_false (R : Rules) (s : Stmt)
    (h : hasLabel R.dd_instrumented s.Start = false) : stripInstrumented R s = s := by
  simp [stripInstrumented, h]

theorem stripInstrumented_noEnd (R : Rules) (s : Stmt) (h : s.noEnd R) :
    (stripInstrumented R s).noEnd R := by
  unfold stripInstrumented
  split
  · exact ⟨hasLabel_removeDecl_of_false _ _ _ h.1, hasLabel_removeDecl_of_false _ _ _ h.2⟩
  · exact h

theorem removeDecoration_end_noEnd (R : Rules) (s : Stmt) :
    (removeDecoration R.dd_endinstrument s).noEnd R :=
  ⟨hasLabel_removeDecl_self _ _, hasLabel_removeDecl_self _ _⟩

/-! ## The loop of `removeStartEndInstrument` -/

theorem scanInstrument_noEnd (R : Rules) (rest done : List Stmt) (start : Nat)
    (h : ∀ s ∈ rest, s.noEnd R) :
    scanInstrument R done start rest = .ret (done ++ rest.map (stripInstrumented R)) := by
  induction rest generalizing done start with
  | nil => simp [scanInstrument]
  | cons x rest ih =>
    have hx := h x (List.mem_cons_self _ _)
    have hr : ∀ s ∈ rest, s.noEnd R := fun s hs => h s (List.mem_cons_of_mem _ hs)
    unfold scanInstrument
    simp only [hx.1, hx.2, Bool.false_eq_true, if_false]
    by_cases hi : hasLabel R.dd_instrumented x.Start = true
    · simp [hi, ih _ _ hr, stripInstrumented]
    · simp [hi, ih _ _ hr, stripInstrumented]

theorem scanInstrument_leading (R : Rules) (pre : List Stmt) (x : Stmt) (post done : List Stmt)
    (start : Nat) (h : ∀ s ∈ pre, s.noEnd R) (hx : hasLabel R.dd_endinstrument x.Start = true) :
    scanInstrument R done start (pre ++ x :: post) =
      .recurse
        ((done ++ pre.map (stripInstrumented R) ++
              removeDecoration R.dd_endinstrument x :: post).take
            (startAfter R start done.length (pre ++ [x])) ++
          (done ++ pre.map (stripInstrumented R) ++
              removeDecoration R.dd_endinstrument x :: post).drop
            (done.length + pre.length)) := by
  induction pre generalizing done start with
  | nil => simp [scanInstrument, hx, startAfter]
  | cons y pre ih =>
    have hy := h y (List.mem_cons_self _ _)
    have hr : ∀ s ∈ pre, s.noEnd R := fun s hs => h s (List.mem_cons_of_mem _ hs)
    simp only [List.cons_append]
    unfold scanInstrument
    simp only [hy.1, hy.2, Bool.false_eq_true, if_false]
    by_cases hi : hasLabel R.dd_instrumented y.Start = true
    · rw [if_pos hi, ih _ _ hr]
      simp [startAfter, stripInstrumented, hi, Nat.add_assoc, Nat.add_comm 1]
    · rw [if_neg hi, ih _ _ hr]
      simp [startAfter, stripInstrumented, hi, Nat.add_assoc, Nat.add_comm 1]

theorem scanInstrument_trailing (R : Rules) (pre : List Stmt) (x : Stmt) (post done : List Stmt)
    (start : Nat) (h : ∀ s ∈ pre, s.noEnd R) (hx : hasLabel R.dd_endinstrument x.Start = false)
    (hx2 : hasLabel R.dd_endinstrument x.End = true) :
    scanInstrument R done start (pre ++ x :: post) =
      .recurse
        ((done ++ pre.map (stripInstrumented R) ++ x :: post).take
            (startAfter R start done.length (pre ++ [x]))) := by
  induction pre generalizing done start with
  | nil => simp [scanInstrument, hx, hx2, startAfter]
  | cons y pre ih =>
    have hy := h y (List.mem_cons_self _ _)
    have hr : ∀ s ∈ pre, s.noEnd R := fun s hs => h s (List.mem_cons_of_mem _ hs)
    simp only [List.cons_append]
    unfold scanInstrument
    simp only [hy.1, hy.2, Bool.false_eq_true, if_false]
    by_cases hi : hasLabel R.dd_instrumented y.Start = true
    · rw [if_pos hi, ih _ _ hr]
      simp [startAfter, stripInstrumented, hi, Nat.add_assoc, Nat.add_comm 1]
    · rw [if_neg hi, ih _ _ hr]
      simp [startAfter, stripInstrumented, hi, Nat.add_assoc, Nat.add_comm 1]

theorem removeStartEndInstrumentFuel_noEnd (R : Rules) (fuel : Nat) (l : List Stmt)
    (h : ∀ s ∈ l, s.noEnd R) :
    removeStartEndInstrumentFuel R (fuel + 1) l = l.map (stripInstrumented R) := by
  simp [removeStartEndInstrumentFuel, scanInstrument_noEnd R l [] 0 h]

theorem removeStartEndInstrument_noEnd (R : Rules) (l : List Stmt)
    (h : ∀ s ∈ l, s.noEnd R) :
    removeStartEndInstrument R l = l.map (stripInstrumented R) :=
  removeStartEndInstrumentFuel_noEnd R _ l h

/-! ## The recursion depth of `removeStartEndInstrument` -/

theorem startAfter_le (R : Rules) (pre : List Stmt) (x : Stmt) (start i : Nat)
    (h : start ≤ i) : startAfter R start i (pre ++ [x]) ≤ i + pre.length := by
  induction pre generalizing start i with
  | nil =>
    simp only [List.nil_append, startAfter, List.length_nil, Nat.add_zero]
    split <;> omega
  | cons y pre ih =>
    have hs : (if hasLabel R.dd_startinstrument y.Start = true then i else start) ≤ i + 1 := by
      split <;> omega
    have := ih _ _ hs
    show startAfter R _ (i + 1) (pre ++ [x]) ≤ i + (pre.length + 1)
    omega

theorem countEnd_append (R : Rules) (a b : List Stmt) :
    countEnd R (a ++ b) = countEnd R a + countEnd R b := by
  simp [countEnd]

theorem countEnd_le_length (R : Rules) (l : List Stmt) : countEnd R l ≤ l.length :=
  List.length_filter_le _ _

theorem countEnd_eq_zero (R : Rules) (l : List Stmt) (h : ∀ s ∈ l, s.noEnd R) :
    countEnd R l = 0 := by
  simp only [countEnd, List.length_eq_zero, List.filter_eq_nil_iff]
  intro s hs
  have := h s hs
  simp [this.1, this.2]

theorem countEnd_cons_pos (R : Rules) (x : Stmt) (l : List Stmt) (h : ¬ x.noEnd R) :
    countEnd R (x :: l) = countEnd R l + 1 := by
  have : (hasLabel R.dd_endinstrument x.Start || hasLabel R.dd_endinstrument x.End) = true := by
    unfold Stmt.noEnd at h
    cases h1 : hasLabel R.dd_endinstrument x.Start <;>
      cases h2 : hasLabel R.dd_endinstrument x.End <;> simp_all
  simp [countEnd, List.filter_cons, this]

theorem noEnd_of_mem_take (R : Rules) (l : List Stmt) (n : Nat) (h : ∀ s ∈ l, s.noEnd R) :
    ∀ s ∈ l.take n, s.noEnd R :=
  fun s hs => h s (List.mem_of_mem_take hs)

theorem exists_first_end (R : Rules) (l : List Stmt) :
    (∀ s ∈ l, s.noEnd R) ∨
      ∃ pre x post, l = pre ++ x :: post ∧ (∀ s ∈ pre, s.noEnd R) ∧ ¬ x.noEnd R := by
  induction l with
  | nil => left; simp
  | cons y l ih =>
    by_cases hy : y.noEnd R
    · rcases ih with h | ⟨pre, x, post, rfl, hp, hx⟩
      · left
        intro s hs
        rcases List.mem_cons.1 hs with rfl | hs
        · exact hy
        · exact h s hs
      · right
        refine ⟨y :: pre, x, post, rfl, ?_, hx⟩
        intro s hs
        rcases List.mem_cons.1 hs with rfl | hs
        · exact hy
        · exact hp s hs
    · right
      exact ⟨[], y, l, rfl, by simp, hy⟩

theorem mem_map_strip_noEnd (R : Rules) (pre : List Stmt) (h : ∀ s ∈ pre, s.noEnd R) :
    ∀ s ∈ pre.map (stripInstrumented R), s.noEnd R := by
  intro s hs
  obtain ⟨t, ht, rfl⟩ := List.mem_map.1 hs
  exact stripInstrumented_noEnd R t (h t ht)

theorem scanInstrument_recurse_countEnd (R : Rules) (l l1 : List Stmt)
    (h : scanInstrument R [] 0 l = .recurse l1) : countEnd R l1 < countEnd R l := by
  rcases exists_first_end R l with hl | ⟨pre, x, post, rfl, hp, hx⟩
  · rw [scanInstrument_noEnd R l [] 0 hl] at h
    cases h
  · have hle := startAfter_le R pre x 0 0 (Nat.le_refl 0)
    have hpre := mem_map_strip_noEnd R pre hp
    have hbig : countEnd R post < countEnd R (pre ++ x :: post) := by
      rw [countEnd_append, countEnd_cons_pos R x post hx]
      omega
    by_cases h1 : hasLabel R.dd_endinstrument x.Start = true
    · rw [scanInstrument_leading R pre x post [] 0 hp h1] at h
      injection h with h
      subst h
      simp only [List.nil_append, List.length_nil, Nat.zero_add] at hle ⊢
      rw [List.take_append_of_le_length (by simpa using hle),
        List.drop_append_of_le_length (by simp), countEnd_append, countEnd_append]
      rw [countEnd_eq_zero R _ (noEnd_of_mem_take R _ _ hpre)]
      have : List.drop pre.length (List.map (stripInstrumented R) pre) = [] := by simp
      rw [this]
      have hx0 : countEnd R (removeDecoration R.dd_endinstrument x :: post) =
          countEnd R post := by
        have := countEnd_append R [removeDecoration R.dd_endinstrument x] post
        rw [countEnd_eq_zero R [removeDecoration R.dd_endinstrument x]] at this
        · simpa using this
        · intro s hs
          rw [List.mem_singleton.1 hs]
          exact removeDecoration_end_noEnd R x
      rw [hx0]
      have h0 : countEnd R [] = 0 := rfl
      omega
    · have h1 : hasLabel R.dd_endinstrument x.Start = false := by simpa using h1
      have h2 : hasLabel R.dd_endinstrument x.End = true := by
        unfold Stmt.noEnd at hx
        cases h2 : hasLabel R.dd_endinstrument x.End <;> simp_all
      rw [scanInstrument_trailing R pre x post [] 0 hp h1 h2] at h
      injection h with h
      subst h
      simp only [List.nil_append, List.length_nil, Nat.zero_add] at hle ⊢
      rw [List.take_append_of_le_length (by simpa using hle)]
      rw [countEnd_eq_zero R _ (noEnd_of_mem_take R _ _ hpre)]
      omega

theorem removeStartEndInstrumentFuel_stable (R : Rules) (f1 f2 : Nat) (l : List Stmt)
    (h1 : countEnd R l < f1) (h2 : countEnd R l < f2) :
    removeStartEndInstrumentFuel R f1 l = removeStartEndInstrumentFuel R f2 l := by
  induction f1 generalizing f2 l with
  | zero => omega
  | succ f1 ih =>
    cases f2 with
    | zero => omega
    | succ f2 =>
      simp only [removeStartEndInstrumentFuel]
      cases hs : scanInstrument R [] 0 l with
      | ret l1 => rfl
      | recurse l1 =>
        have := scanInstrument_recurse_countEnd R l l1 hs
        exact ih f2 l1 (by omega) (by omega)

/-- The defining equation of `removeStartEndInstrument`, as in the source: the loop either
returns the list or the function calls itself on the spliced list. -/
theorem removeStartEndInstrument_unfold (R : Rules) (l : List Stmt) :
    removeStartEndInstrument R l =
      match scanInstrument R [] 0 l with
      | .ret l1 => l1
      | .recurse l1 => removeStartEndInstrument R l1 := by
  unfold removeStartEndInstrument
  simp only [removeStartEndInstrumentFuel]
  cases hs : scanInstrument R [] 0 l with
  | ret l1 => rfl
  | recurse l1 =>
    have := scanInstrument_recurse_countEnd R l l1 hs
    have h1 := countEnd_le_length R l
    have h2 := countEnd_le_length R l1
    exact removeStartEndInstrumentFuel_stable R l.length (l1.length + 1) l1 (by omega) (by omega)

/-! ## One span in `removeStartEndInstrument` -/

theorem startAfter_append (R : Rules) (a b : List Stmt) (start i : Nat) :
    startAfter R start i (a ++ b) = startAfter R (startAfter R start i a) (i + a.length) b := by
  induction a generalizing start i with
  | nil => simp [startAfter]
  | cons y a ih =>
    show startAfter R _ (i + 1) (a ++ b) =
      startAfter R (startAfter R _ (i + 1) a) (i + (a.length + 1)) b
    rw [ih]
    congr 1
    omega

theorem startAfter_noStart (R : Rules) (a : List Stmt) (start i : Nat)
    (h : ∀ s ∈ a, hasLabel R.dd_startinstrument s.Start = false) :
    startAfter R start i a = start := by
  induction a generalizing start i with
  | nil => rfl
  | cons y a ih =>
    simp only [startAfter, h y (List.mem_cons_self _ _), Bool.false_eq_true, if_false]
    exact ih _ _ (fun s hs => h s (List.mem_cons_of_mem _ hs))

theorem startAfter_last (R : Rules) (a : List Stmt) (y : Stmt) (b : List Stmt) (start i : Nat)
    (hy : hasLabel R.dd_startinstrument y.Start = true)
    (hb : ∀ s ∈ b, hasLabel R.dd_startinstrument s.Start = false) :
    startAfter R start i (a ++ y :: b) = i + a.length := by
  rw [startAfter_append]
  simp only [startAfter, hy, if_true]
  exact startAfter_noStart R b _ _ hb

theorem map_strip_take_strip (R : Rules) (pre : List Stmt) (n : Nat) :
    ((pre.map (stripInstrumented R)).take n).map (stripInstrumented R) =
      (pre.take n).map (stripInstrumented R) := by
  rw [← List.map_take, List.map_map]
  apply List.map_congr_left
  intro s _
  exact stripInstrumented_idem R s

/-- A span closed by `dd_endinstrument` on leading decorations, no other end marker in the
list: the cut starts at the value `start` has when the loop reaches the end marker. -/
theorem removeStartEndInstrument_leading (R : Rules) (pre : List Stmt) (x : Stmt)
    (post : List Stmt) (hp : ∀ s ∈ pre, s.noEnd R)
    (hx : hasLabel R.dd_endinstrument x.Start = true) (hq : ∀ s ∈ post, s.noEnd R) :
    removeStartEndInstrument R (pre ++ x :: post) =
      (pre.take (startAfter R 0 0 (pre ++ [x])) ++
        removeDecoration R.dd_endinstrument x :: post).map (stripInstrumented R) := by
  have hle := startAfter_le R pre x 0 0 (Nat.le_refl 0)
  rw [removeStartEndInstrument_unfold, scanInstrument_leading R pre x post [] 0 hp hx]
  simp only [List.nil_append, List.length_nil, Nat.zero_add] at hle ⊢
  rw [List.take_append_of_le_length (by simpa using hle),
    List.drop_append_of_le_length (by simp)]
  have hd : List.drop pre.length (List.map (stripInstrumented R) pre) = [] := by simp
  rw [hd, List.nil_append, removeStartEndInstrument_noEnd]
  · rw [List.map_append, List.map_append, map_strip_take_strip]
  · intro s hs
    rcases List.mem_append.1 hs with hs | hs
    · exact mem_map_strip_noEnd R pre hp s (List.mem_of_mem_take hs)
    · rcases List.mem_cons.1 hs with rfl | hs
      · exact removeDecoration_end_noEnd R x
      · exact hq s hs

/-- A span closed by `dd_endinstrument` on trailing decorations: the list is cut at `start`
and nothing after the cut is kept. -/
theorem removeStartEndInstrument_trailing (R : Rules) (pre : List Stmt) (x : Stmt)
    (post : List Stmt) (hp : ∀ s ∈ pre, s.noEnd R)
    (hx : hasLabel R.dd_endinstrument x.Start = false)
    (hx2 : hasLabel R.dd_endinstrument x.End = true) :
    removeStartEndInstrument R (pre ++ x :: post) =
      (pre.take (startAfter R 0 0 (pre ++ [x]))).map (stripInstrumented R) := by
  have hle := startAfter_le R pre x 0 0 (Nat.le_refl 0)
  rw [removeStartEndInstrument_unfold, scanInstrument_trailing R pre x post [] 0 hp hx hx2]
  simp only [List.nil_append, List.length_nil, Nat.zero_add] at hle ⊢
  rw [List.take_append_of_le_length (by simpa using hle), removeStartEndInstrument_noEnd]
  · exact map_strip_take_strip R pre _
  · intro s hs
    exact mem_map_strip_noEnd R pre hp s (List.mem_of_mem_take hs)

theorem split_at_two (l : List Stmt) (s e : Nat) (hse : s < e) (he : e < l.length) :
    l.take e = l.take s ++ l[s] :: (l.drop (s + 1)).take (e - s - 1) ∧
      l = l.take e ++ l[e] :: l.drop (e + 1) := by
  constructor
  · have h1 : l.take e = (l.take e).take s ++ (l.take e).drop s :=
      (List.take_append_drop s _).symm
    rw [List.take_take, Nat.min_eq_left (Nat.le_of_lt hse)] at h1
    rw [h1]
    congr 1
    rw [List.drop_take, List.drop_eq_getElem_cons (by omega : s < l.length)]
    obtain ⟨k, hk⟩ : ∃ k, e - s = k + 1 := ⟨e - s - 1, by omega⟩
    rw [hk, List.take_succ_cons]
    simp
  · rw [List.getElem_cons_drop, List.take_append_drop]

theorem mem_take_drop (l : List Stmt) (a n : Nat) (t : Stmt)
    (h : t ∈ (l.drop a).take n) :
    ∃ k, ∃ hk : k < l.length, a ≤ k ∧ k < a + n ∧ l[k] = t := by
  obtain ⟨j, hj, rfl⟩ := List.mem_iff_getElem.1 h
  simp only [List.length_take, List.length_drop] at hj
  refine ⟨a + j, by omega, by omega, by omega, ?_⟩
  simp [List.getElem_take, List.getElem_drop]

/-! ## Frames -/

theorem Touched.trans {R : Rules} {U : List (Stmt → Stmt)} {a b c : Stmt}
    (h1 : Touched R U a b) (h2 : Touched R U b c) : Touched R U a c := by
  induction h2 with
  | refl => exact h1
  | stripStart m hm _ ih => exact .stripStart m hm ih
  | stripEnd m hm _ ih => exact .stripEnd m hm ih
  | rule u hu _ ih => exact .rule u hu ih

theorem Touched.mono {R : Rules} {U : List (Stmt → Stmt)} {a b : Stmt}
    (h : Touched R [] a b) : Touched R U a b := by
  induction h with
  | refl => exact .refl _
  | stripStart m hm _ ih => exact .stripStart m hm ih
  | stripEnd m hm _ ih => exact .stripEnd m hm ih
  | rule u hu _ _ => cases hu

theorem Touched.removeDecoration {R : Rules} {U : List (Stmt → Stmt)} {a b : Stmt} (m : String)
    (hm : R.isLabel m) (h : Touched R U a b) : Touched R U a (removeDecoration m b) :=
  .stripEnd m hm (.stripStart m hm h)

theorem Touched.stripInstrumented {R : Rules} {U : List (Stmt → Stmt)} {a b : Stmt}
    (h : Touched R U a b) : Touched R U a (stripInstrumented R b) := by
  unfold Orchestrion.stripInstrumented
  split
  · exact h.removeDecoration _ (Or.inr (Or.inr (Or.inr (Or.inr rfl))))
  · exact h

theorem unmarked_removeDecl (R : Rules) (m : String) (hm : R.isLabel m) (ds : Decorations) :
    unmarked R (removeDecl m ds) = unmarked R ds := by
  rw [removeDecl_eq_filter, unmarked, unmarked, List.filter_filter]
  apply List.filter_congr
  intro d _
  have : isMarker R d = false → HasPrefix d m = false := by
    intro h
    unfold isMarker at h
    simp only [Bool.or_eq_false_iff] at h
    rcases hm with rfl | rfl | rfl | rfl | rfl
    · exact h.1.1.1.1
    · exact h.1.1.1.2
    · exact h.1.1.2
    · exact h.1.2
    · exact h.2
  cases h1 : isMarker R d
  · simp [this h1]
  · simp

theorem Touched.kind_eq {R : Rules} {a b : Stmt} (h : Touched R [] a b) : b.kind = a.kind := by
  induction h with
  | refl => rfl
  | stripStart m _ _ ih => exact ih
  | stripEnd m _ _ ih => exact ih
  | rule u hu _ _ => cases hu

theorem Touched.unmarked_eq {R : Rules} {U : List (Stmt → Stmt)} {a b : Stmt}
    (hU : ∀ u ∈ U, ∀ s, (u s).Start = s.Start ∧ (u s).End = s.End)
    (h : Touched R U a b) :
    unmarked R b.Start = unmarked R a.Start ∧ unmarked R b.End = unmarked R a.End := by
  induction h with
  | refl => exact ⟨rfl, rfl⟩
  | stripStart m hm _ ih =>
    exact ⟨(unmarked_removeDecl R m hm _).trans ih.1, ih.2⟩
  | stripEnd m hm _ ih =>
    exact ⟨ih.1, (unmarked_removeDecl R m hm _).trans ih.2⟩
  | rule u hu _ ih =>
    rw [(hU u hu _).1, (hU u hu _).2]
    exact ih

theorem forall₂_pullback {P : Stmt → Stmt → Prop} {l l2 l1 : List Stmt}
    (h : List.Forall₂ P l l2) (hs : l1.Sublist l2) :
    ∃ kept : List Stmt, kept.Sublist l ∧ List.Forall₂ P kept l1 := by
  induction hs generalizing l with
  | slnil =>
    cases h
    exact ⟨[], List.Sublist.slnil, List.Forall₂.nil⟩
  | cons a _ ih =>
    cases h with
    | cons hab ht =>
      obtain ⟨kept, hk, hf⟩ := ih ht
      exact ⟨kept, hk.cons _, hf⟩
  | cons₂ a _ ih =>
    cases h with
    | cons hab ht =>
      obtain ⟨kept, hk, hf⟩ := ih ht
      exact ⟨_ :: kept, hk.cons₂ _, List.Forall₂.cons hab hf⟩

theorem Frame.refl {P : Stmt → Stmt → Prop} (hP : ∀ a, P a a) (l : List Stmt) : Frame P l l :=
  ⟨l, List.Sublist.refl l, List.forall₂_same.2 (fun a _ => hP a)⟩

theorem Frame.compose {P : Stmt → Stmt → Prop} (hP : ∀ a b c, P a b → P b c → P a c)
    {l m out : List Stmt} (h1 : Frame P l m) (h2 : Frame P m out) : Frame P l out := by
  obtain ⟨k1, hk1, hf1⟩ := h1
  obtain ⟨k2, hk2, hf2⟩ := h2
  obtain ⟨k3, hk3, hf3⟩ := forall₂_pullback hf1 hk2
  refine ⟨k3, hk3.trans hk1, ?_⟩
  clear hk1 hk2 hk3 hf1
  induction hf3 generalizing out with
  | nil => cases hf2; exact List.Forall₂.nil
  | cons hab _ ih =>
    cases hf2 with
    | cons hbc ht => exact List.Forall₂.cons (hP _ _ _ hab hbc) (ih ht)

theorem Frame.of_sublist_of_forall₂ {P : Stmt → Stmt → Prop} {l l2 out : List Stmt}
    (h : List.Forall₂ P l l2) (hs : out.Sublist l2) : Frame P l out :=
  forall₂_pullback h hs

theorem forall₂_map_strip (R : Rules) (l : List Stmt) :
    List.Forall₂ (Touched R []) l (l.map (stripInstrumented R)) := by
  rw [List.forall₂_map_right_iff]
  exact List.forall₂_same.2 (fun a _ => (Touched.refl a).stripInstrumented)

/-- One run of the loop of `removeStartEndInstrument` keeps a sub-sequence of the list, and
edits the statements it keeps only by taking marker entries out of their decorations. -/
theorem scanInstrument_frame (R : Rules) (l : List Stmt) :
    Frame (Touched R [])  l
      (match scanInstrument R [] 0 l with
        | .ret l1 => l1
        | .recurse l1 => l1) := by
  rcases exists_first_end R l with hl | ⟨pre, x, post, rfl, hp, hx⟩
  · rw [scanInstrument_noEnd R l [] 0 hl]
    exact ⟨l, List.Sublist.refl l, by simpa using forall₂_map_strip R l⟩
  · have hle := startAfter_le R pre x 0 0 (Nat.le_refl 0)
    simp only [Nat.zero_add] at hle
    by_cases h1 : hasLabel R.dd_endinstrument x.Start = true
    · rw [scanInstrument_leading R pre x post [] 0 hp h1]
      simp only [List.nil_append, List.length_nil, Nat.zero_add]
      have hf : List.Forall₂ (Touched R []) (pre ++ x :: post)
          (pre.map (stripInstrumented R) ++ removeDecoration R.dd_endinstrument x :: post) := by
        apply List.rel_append (forall₂_map_strip R pre)
        exact List.Forall₂.cons
          ((Touched.refl x).removeDecoration _ (Or.inr (Or.inr (Or.inr (Or.inl rfl)))))
          (List.forall₂_same.2 (fun a _ => Touched.refl a))
      refine Frame.of_sublist_of_forall₂ hf ?_
      rw [List.take_append_of_le_length (by simpa using hle),
        List.drop_append_of_le_length (by simp)]
      have hd : List.drop pre.length (List.map (stripInstrumented R) pre) = [] := by simp
      rw [hd, List.nil_append]
      exact List.Sublist.append (List.take_sublist _ _) (List.Sublist.refl _)
    · have h1 : hasLabel R.dd_endinstrument x.Start = false := by simpa using h1
      have h2 : hasLabel R.dd_endinstrument x.End = true := by
        unfold Stmt.noEnd at hx
        cases h2 : hasLabel R.dd_endinstrument x.End <;> simp_all
      rw [scanInstrument_trailing R pre x post [] 0 hp h1 h2]
      simp only [List.nil_append, List.length_nil, Nat.zero_add]
      have hf : List.Forall₂ (Touched R []) (pre ++ x :: post)
          (pre.map (stripInstrumented R) ++ x :: post) := by
        apply List.rel_append (forall₂_map_strip R pre)
        exact List.forall₂_same.2 (fun a _ => Touched.refl a)
      exact Frame.of_sublist_of_forall₂ hf (List.take_sublist _ _)

theorem removeStartEndInstrumentFuel_frame (R : Rules) (fuel : Nat) (l : List Stmt) :
    Frame (Touched R []) l (removeStartEndInstrumentFuel R fuel l) := by
  induction fuel generalizing l with
  | zero => exact Frame.refl Touched.refl l
  | succ fuel ih =>
    have h := scanInstrument_frame R l
    simp only [removeStartEndInstrumentFuel]
    cases hs : scanInstrument R [] 0 l with
    | ret l1 => simpa [hs] using h
    | recurse l1 =>
      rw [hs] at h
      exact Frame.compose (P := Touched R []) (fun _ _ _ h1 h2 => Touched.trans h1 h2) h (ih l1)

theorem removeStartEndInstrument_frame (R : Rules) (l : List Stmt) :
    Frame (Touched R []) l (removeStartEndInstrument R l) :=
  removeStartEndInstrumentFuel_frame R _ l

/-! ## The loops of `removeStartEndWrap` -/

theorem WrapState.toList_ofList (l : List Stmt) :
    (WrapState.ofList l).toList = l := by
  apply List.ext_getElem
  · simp [WrapState.toList, WrapState.ofList]
  · intro n h1 h2
    simp [WrapState.toList, WrapState.ofList, List.getElem?_eq_getElem h2]

theorem wrapOuter_noStart (R : Rules) (n i : Nat) (st : WrapState)
    (h : ∀ k, i ≤ k → k < i + n →
      hasLabel R.dd_startwrap (st.heap (st.arr k)).Start = false) :
    wrapOuter R i n st = some st := by
  induction n generalizing i with
  | zero => rfl
  | succ n ih =>
    unfold wrapOuter
    simp only [h i (Nat.le_refl i) (by omega), Bool.false_eq_true, if_false]
    exact ih (i + 1) (fun k hk1 hk2 => h k (by omega) (by omega))

theorem removeStartEndWrap_noStart (R : Rules) (l : List Stmt)
    (h : ∀ s ∈ l, hasLabel R.dd_startwrap s.Start = false) :
    removeStartEndWrap R l = some l := by
  unfold removeStartEndWrap
  rw [wrapOuter_noStart]
  · simp [WrapState.toList_ofList]
  · intro k _ hk
    have hk : k < l.length := by omega
    simp only [WrapState.ofList, List.getD_eq_getElem _ _ hk]
    exact h _ (List.getElem_mem _)

/-! ## The invariant of `removeStartEndWrap` -/

theorem WrapInv.ofList (R : Rules) (l : List Stmt) : WrapInv R l (WrapState.ofList l) where
  len_le := Nat.le_refl _
  arr_lt := fun _ hk => hk
  mono := fun _ _ hab _ => hab
  rel := fun p hp => by
    simp only [WrapState.ofList, List.getD_eq_getElem _ _ hp]
    exact Touched.refl _

theorem WrapInv.modify {R : Rules} {l : List Stmt} {st : WrapState} (h : WrapInv R l st)
    (p : Nat) (f : Stmt → Stmt)
    (hf : ∀ a, Touched R R.unwrappers a (st.heap p) → Touched R R.unwrappers a (f (st.heap p))) :
    WrapInv R l (st.modify p f) where
  len_le := h.len_le
  arr_lt := h.arr_lt
  mono := h.mono
  rel := fun q hq => by
    simp only [WrapState.modify]
    split
    · rename_i hqp
      subst hqp
      exact hf _ (h.rel q hq)
    · exact h.rel q hq

theorem WrapInv.delete {R : Rules} {l : List Stmt} {st : WrapState} (h : WrapInv R l st)
    (i : Nat) (hi : i < st.len) : WrapInv R l (st.delete i) where
  len_le := by
    have := h.len_le
    simp only [WrapState.delete]
    omega
  arr_lt := fun k hk => by
    have := h.len_le
    simp only [WrapState.delete]
    split
    · exact h.arr_lt _ (by omega)
    · exact h.arr_lt _ hk
  mono := fun a b hab hb => by
    simp only [WrapState.delete] at hb ⊢
    have hb1 : b + 1 < st.len := by omega
    have ha1 : a + 1 < st.len := by omega
    by_cases h1 : i ≤ a
    · rw [if_pos ⟨h1, ha1⟩, if_pos ⟨by omega, hb1⟩]
      exact h.mono _ _ (by omega) hb1
    · rw [if_neg (fun hh => h1 hh.1)]
      by_cases h2 : i ≤ b
      · rw [if_pos ⟨h2, hb1⟩]
        exact h.mono _ _ (by omega) hb1
      · rw [if_neg (fun hh => h2 hh.1)]
        exact h.mono _ _ hab (by omega)
  rel := h.rel

theorem Touched.foldl_rules {R : Rules} {U : List (Stmt → Stmt)} (V : List (Stmt → Stmt))
    (hV : ∀ u ∈ V, u ∈ U) {a b : Stmt} (h : Touched R U a b) :
    Touched R U a (V.foldl (fun s u => u s) b) := by
  induction V generalizing b with
  | nil => exact h
  | cons u V ih =>
    simp only [List.foldl_cons]
    exact ih (fun v hv => hV v (List.mem_cons_of_mem _ hv))
      (.rule u (hV u (List.mem_cons_self _ _)) h)

theorem WrapInv.unwrap {R : Rules} {l : List Stmt} (n lo : Nat) {st : WrapState}
    (h : WrapInv R l st) : WrapInv R l (unwrap R lo n st) := by
  induction n generalizing lo st with
  | zero => exact h
  | succ n ih =>
    simp only [Orchestrion.unwrap]
    exact ih _ (h.modify _ _ (fun a ha => Touched.foldl_rules _ (fun u hu => hu) ha))

theorem WrapInv.tryRemovers {R : Rules} {l : List Stmt} (i : Nat) (rms : List (Stmt → Bool))
    {st st1 : WrapState} (h : WrapInv R l st) (he : tryRemovers i rms st = some st1) :
    WrapInv R l st1 := by
  induction rms with
  | nil =>
    simp only [Orchestrion.tryRemovers, Option.some.injEq] at he
    exact he ▸ h
  | cons rm rms ih =>
    simp only [Orchestrion.tryRemovers] at he
    split at he
    · rename_i hi
      split at he
      · simp only [Option.some.injEq] at he
        exact he ▸ h.delete i hi
      · exact ih he
    · cases he

theorem WrapInv.remove {R : Rules} {l : List Stmt} (n i : Nat)
    {st st1 : WrapState} (h : WrapInv R l st) (he : remove R i n st = some st1) :
    WrapInv R l st1 := by
  induction n generalizing i st with
  | zero =>
    simp only [Orchestrion.remove, Option.some.injEq] at he
    exact he ▸ h
  | succ n ih =>
    simp only [Orchestrion.remove] at he
    cases ht : Orchestrion.tryRemovers i R.removers st with
    | none => simp [ht] at he
    | some st2 =>
      simp only [ht] at he
      exact ih _ (h.tryRemovers i _ ht) he

theorem WrapInv.stripStart {R : Rules} {l : List Stmt} {st : WrapState} (h : WrapInv R l st)
    (p : Nat) (m : String) (hm : R.isLabel m) :
    WrapInv R l (st.modify p (fun s => s.replaceStart (removeDecl m s.Start))) :=
  h.modify _ _ (fun _ ha => .stripStart m hm ha)

theorem WrapInv.stripEnd {R : Rules} {l : List Stmt} {st : WrapState} (h : WrapInv R l st)
    (p : Nat) (m : String) (hm : R.isLabel m) :
    WrapInv R l (st.modify p (fun s => s.replaceEnd (removeDecl m s.End))) :=
  h.modify _ _ (fun _ ha => .stripEnd m hm ha)

theorem WrapInv.wrapInner {R : Rules} {l : List Stmt} (i n j : Nat)
    {st st1 : WrapState} (h : WrapInv R l st) (he : wrapInner R i j n st = some st1) :
    WrapInv R l st1 := by
  induction n generalizing j st with
  | zero =>
    simp only [Orchestrion.wrapInner, Option.some.injEq] at he
    exact he ▸ h
  | succ n ih =>
    simp only [Orchestrion.wrapInner] at he
    split at he
    · split at he
      · cases he
      · rename_i st2 hr
        exact ih _ ((h.stripStart _ _ (Or.inr (Or.inl rfl))).unwrap _ _ |>.remove _ _ hr) he
    · exact ih _ h he

theorem WrapInv.wrapOuter {R : Rules} {l : List Stmt} (n i : Nat)
    {st st1 : WrapState} (h : WrapInv R l st) (he : wrapOuter R i n st = some st1) :
    WrapInv R l st1 := by
  induction n generalizing i st with
  | zero =>
    simp only [Orchestrion.wrapOuter, Option.some.injEq] at he
    exact he ▸ h
  | succ n ih =>
    simp only [Orchestrion.wrapOuter] at he
    have h1 := h.stripStart (st.arr i) _ (Or.inl rfl)
    split at he
    · split at he
      · have h2 := h1.stripEnd (st.arr i) _ (Or.inr (Or.inl rfl))
        split at he
        · cases he
        · rename_i st3 hr
          exact ih _ ((h2.unwrap _ _).remove _ _ hr) he
      · split at he
        · split at he
          · cases he
          · rename_i st3 hr
            exact ih _ (h1.wrapInner _ _ _ hr) he
        · cases he
    · exact ih _ h he

theorem WrapInv.frame {R : Rules} {l : List Stmt} {st : WrapState} (h : WrapInv R l st) :
    Frame (Touched R R.unwrappers) l st.toList := by
  have hlen := h.len_le
  have hsorted : List.Sorted (· < ·) ((List.range st.len).map st.arr) := by
    rw [List.Sorted, List.pairwise_map]
    refine (List.pairwise_lt_range st.len).imp_of_mem ?_
    intro a b _ hb hab
    exact h.mono a b hab (List.mem_range.1 hb)
  have hsub : (List.range st.len).map st.arr ⊆ List.range l.length := by
    intro p hp
    obtain ⟨k, hk, rfl⟩ := List.mem_map.1 hp
    exact List.mem_range.2 (h.arr_lt k (by have := List.mem_range.1 hk; omega))
  have hsl : ((List.range st.len).map st.arr).Sublist (List.range l.length) :=
    List.sublist_of_subperm_of_sorted (List.subperm_of_subset hsorted.nodup hsub) hsorted
      (List.sorted_lt_range _)
  refine ⟨((List.range st.len).map st.arr).map (fun p => l.getD p default), ?_, ?_⟩
  · have := hsl.map (fun p => l.getD p default)
    have h0 : (List.range l.length).map (fun p => l.getD p default) = l :=
      WrapState.toList_ofList l
    rwa [h0] at this
  · simp only [WrapState.toList, List.map_map]
    rw [List.forall₂_map_left_iff, List.forall₂_map_right_iff]
    refine List.forall₂_same.2 ?_
    intro k hk
    have hk : k < st.len := List.mem_range.1 hk
    have hp := h.arr_lt k (by omega)
    simp only [Function.comp, List.getD_eq_getElem _ _ hp]
    exact h.rel _ hp

/-- Whatever `removeStartEndWrap` returns is a sub-sequence of its argument, the statements
kept being edited only by marker stripping and by the unwrap rules. -/
theorem removeStartEndWrap_frame (R : Rules) (l out : List Stmt)
    (h : removeStartEndWrap R l = some out) : Frame (Touched R R.unwrappers) l out := by
  unfold removeStartEndWrap at h
  cases hw : wrapOuter R 0 l.length (WrapState.ofList l) with
  | none => simp [hw] at h
  | some st =>
    simp only [hw, Option.map_some', Option.some.injEq] at h
    rw [← h]
    exact (WrapInv.ofList R l).wrapOuter _ _ hw |>.frame

/-! ## Single steps of the loops of `removeStartEndWrap` -/

theorem tryRemovers_noMatch (i : Nat) (rms : List (Stmt → Bool)) (st : WrapState)
    (hi : i < st.len) (h : ∀ rm ∈ rms, rm (st.heap (st.arr i)) = false) :
    tryRemovers i rms st = some st := by
  induction rms with
  | nil => rfl
  | cons rm rms ih =>
    simp only [tryRemovers, hi, if_true, h rm (List.mem_cons_self _ _), Bool.false_eq_true,
      if_false]
    exact ih (fun r hr => h r (List.mem_cons_of_mem _ hr))

theorem unwrapStmt_Start (R : Rules) (hU : ∀ u ∈ R.unwrappers, ∀ s : Stmt, (u s).Start = s.Start)
    (s : Stmt) : (R.unwrapStmt s).Start = s.Start := by
  unfold Rules.unwrapStmt
  generalize R.unwrappers = V at hU
  induction V generalizing s with
  | nil => rfl
  | cons u V ih =>
    simp only [List.foldl_cons]
    rw [ih (u s) (fun v hv => hU v (List.mem_cons_of_mem _ hv)), hU u (List.mem_cons_self _ _)]

theorem wrapOuter_skip (R : Rules) (i n : Nat) (st : WrapState)
    (h : hasLabel R.dd_startwrap (st.heap (st.arr i)).Start = false) :
    wrapOuter R i (n + 1) st = wrapOuter R (i + 1) n st := by
  rw [wrapOuter]
  simp only [h, Bool.false_eq_true, if_false]

theorem WrapState.modify_modify (st : WrapState) (p : Nat) (f g : Stmt → Stmt) :
    (st.modify p f).modify p g = st.modify p (fun s => g (f s)) := by
  simp only [WrapState.modify, if_true]
  congr 1
  funext q
  split <;> rfl

/-- The same-line branch of the outer loop when no remover matches: the statement at `i`
loses both markers and is unwrapped, the slice is unchanged. -/
theorem wrapOuter_sameLine (R : Rules) (i n : Nat) (st : WrapState)
    (hS : hasLabel R.dd_startwrap (st.heap (st.arr i)).Start = true)
    (hE : hasLabel R.dd_endwrap (st.heap (st.arr i)).End = true)
    (hi : i < st.len)
    (hrm : ∀ rm ∈ R.removers,
      rm (R.unwrapStmt (.mk (removeDecl R.dd_startwrap (st.heap (st.arr i)).Start)
        (removeDecl R.dd_endwrap (st.heap (st.arr i)).End) (st.heap (st.arr i)).kind)) = false) :
    wrapOuter R i (n + 1) st =
      wrapOuter R (i + 1) n
        (st.modify (st.arr i) (fun s => R.unwrapStmt
          (.mk (removeDecl R.dd_startwrap s.Start) (removeDecl R.dd_endwrap s.End) s.kind))) := by
  rw [wrapOuter]
  simp only [hS, if_true]
  have hE1 : hasLabel R.dd_endwrap
      ((st.modify (st.arr i) (fun s => s.replaceStart (removeDecl R.dd_startwrap s.Start))).heap
        (st.arr i)).End = true := by
    simpa [WrapState.modify, Stmt.replaceStart, Stmt.End] using hE
  simp only [hE1, if_true, unwrap, remove]
  have hst : ((st.modify (st.arr i) (fun s => s.replaceStart (removeDecl R.dd_startwrap s.Start))).modify
      (st.arr i) (fun s => s.replaceEnd (removeDecl R.dd_endwrap s.End))).modify
        (((st.modify (st.arr i) (fun s => s.replaceStart (removeDecl R.dd_startwrap s.Start))).modify
          (st.arr i) (fun s => s.replaceEnd (removeDecl R.dd_endwrap s.End))).arr i) R.unwrapStmt =
      st.modify (st.arr i) (fun s => R.unwrapStmt
          (.mk (removeDecl R.dd_startwrap s.Start) (removeDecl R.dd_endwrap s.End) s.kind)) := by
    show ((st.modify (st.arr i) _).modify (st.arr i) _).modify (st.arr i) _ = _
    rw [WrapState.modify_modify, WrapState.modify_modify]
    rfl
  rw [hst, tryRemovers_noMatch i R.removers
    (st.modify (st.arr i) (fun s => R.unwrapStmt
      (.mk (removeDecl R.dd_startwrap s.Start) (removeDecl R.dd_endwrap s.End) s.kind)))
    hi (by simpa [WrapState.modify] using hrm)]

theorem wrapOuter_region (R : Rules) (i n : Nat) (st : WrapState)
    (hS : hasLabel R.dd_startwrap (st.heap (st.arr i)).Start = true)
    (hE : hasLabel R.dd_endwrap (st.heap (st.arr i)).End = false)
    (hi : i ≤ st.len) :
    wrapOuter R i (n + 1) st =
      match wrapInner R i 0 (st.len - i)
        (st.modify (st.arr i) (fun s => s.replaceStart (removeDecl R.dd_startwrap s.Start))) with
      | none => none
      | some st3 => wrapOuter R (i + 1) n st3 := by
  rw [wrapOuter]
  simp only [hS, if_true]
  have hE1 : hasLabel R.dd_endwrap
      ((st.modify (st.arr i) (fun s => s.replaceStart (removeDecl R.dd_startwrap s.Start))).heap
        (st.arr i)).End = false := by
    simpa [WrapState.modify, Stmt.replaceStart, Stmt.End] using hE
  have hi1 : i ≤ (st.modify (st.arr i)
      (fun s => s.replaceStart (removeDecl R.dd_startwrap s.Start))).len := hi
  simp only [hE1, Bool.false_eq_true, if_false, hi1, if_true]
  rfl

theorem wrapInner_skip (R : Rules) (i j n : Nat) (st : WrapState)
    (h : hasLabel R.dd_endwrap (st.heap (st.arr (i + j))).Start = false) :
    wrapInner R i j (n + 1) st = wrapInner R i (j + 1) n st := by
  rw [wrapInner]
  simp only [h, Bool.false_eq_true, if_false]

theorem wrapInner_hit (R : Rules) (i j n : Nat) (st : WrapState)
    (h : hasLabel R.dd_endwrap (st.heap (st.arr (i + j))).Start = true) :
    wrapInner R i j (n + 1) st =
      match remove R i j (unwrap R i j
        (st.modify (st.arr (i + j)) (fun s => s.replaceStart (removeDecl R.dd_endwrap s.Start)))) with
      | none => none
      | some st2 => wrapInner R i (j + 1) n st2 := by
  rw [wrapInner]
  simp only [h, if_true]

theorem remove_noMatch (R : Rules) (n i : Nat) (st : WrapState)
    (h : ∀ k, i ≤ k → k < i + n →
      k < st.len ∧ ∀ rm ∈ R.removers, rm (st.heap (st.arr k)) = false) :
    remove R i n st = some st := by
  induction n generalizing i with
  | zero => rfl
  | succ n ih =>
    rw [remove, tryRemovers_noMatch i R.removers st (h i (Nat.le_refl i) (by omega)).1
      (h i (Nat.le_refl i) (by omega)).2]
    exact ih (i + 1) (fun k hk1 hk2 => h k (by omega) (by omega))

/-! ## Postcondition of `removeStartEndInstrument` -/

theorem exists_last_start (R : Rules) (l : List Stmt) :
    (∀ s ∈ l, hasLabel R.dd_startinstrument s.Start = false) ∨
      ∃ a y b, l = a ++ y :: b ∧ hasLabel R.dd_startinstrument y.Start = true ∧
        ∀ s ∈ b, hasLabel R.dd_startinstrument s.Start = false := by
  induction l with
  | nil => left; simp
  | cons x l ih =>
    rcases ih with h | ⟨a, y, b, rfl, hy, hb⟩
    · by_cases hx : hasLabel R.dd_startinstrument x.Start = true
      · right
        exact ⟨[], x, l, rfl, hx, h⟩
      · left
        intro s hs
        rcases List.mem_cons.1 hs with rfl | hs
        · simpa using hx
        · exact h s hs
    · right
      exact ⟨x :: a, y, b, rfl, hy, hb⟩

theorem removeStartEndInstrument_post (R : Rules) (n : Nat) (l : List Stmt)
    (hn : countEnd R l ≤ n) :
    ∀ s ∈ removeStartEndInstrument R l,
      s.noEnd R ∧ hasLabel R.dd_instrumented s.Start = false := by
  induction n generalizing l with
  | zero =>
    have hl : ∀ s ∈ l, s.noEnd R := by
      rcases exists_first_end R l with h | ⟨pre, x, post, rfl, _, hx⟩
      · exact h
      · rw [countEnd_append, countEnd_cons_pos R x post hx] at hn
        omega
    rw [removeStartEndInstrument_noEnd R l hl]
    intro s hs
    obtain ⟨t, ht, rfl⟩ := List.mem_map.1 hs
    refine ⟨stripInstrumented_noEnd R t (hl t ht), ?_⟩
    unfold stripInstrumented
    by_cases hi : hasLabel R.dd_instrumented t.Start = true
    · simp [hi, removeDecoration_Start, hasLabel_removeDecl_self]
    · simp [hi]
  | succ n ih =>
    rw [removeStartEndInstrument_unfold]
    cases hs : scanInstrument R [] 0 l with
    | ret l1 =>
      rcases exists_first_end R l with h | ⟨pre, x, post, rfl, hp, hx⟩
      · rw [scanInstrument_noEnd R l [] 0 h] at hs
        injection hs with hs
        subst hs
        intro s hs
        obtain ⟨t, ht, rfl⟩ := List.mem_map.1 (by simpa using hs)
        refine ⟨stripInstrumented_noEnd R t (h t ht), ?_⟩
        unfold stripInstrumented
        by_cases hi : hasLabel R.dd_instrumented t.Start = true
        · simp [hi, removeDecoration_Start, hasLabel_removeDecl_self]
        · simp [hi]
      · exfalso
        by_cases h1 : hasLabel R.dd_endinstrument x.Start = true
        · rw [scanInstrument_leading R pre x post [] 0 hp h1] at hs
          cases hs
        · have h1 : hasLabel R.dd_endinstrument x.Start = false := by simpa using h1
          have h2 : hasLabel R.dd_endinstrument x.End = true := by
            unfold Stmt.noEnd at hx
            cases h2 : hasLabel R.dd_endinstrument x.End <;> simp_all
          rw [scanInstrument_trailing R pre x post [] 0 hp h1 h2] at hs
          cases hs
    | recurse l1 =>
      have := scanInstrument_recurse_countEnd R l l1 hs
      exact ih l1 (by omega)

/-! ## The value of `start` at the first end marker -/

theorem take_succ_split (l : List Stmt) (e : Nat) (he : e < l.length) :
    l.take (e + 1) = l.take e ++ [l[e]] ∧ l = l.take e ++ l[e] :: l.drop (e + 1) := by
  constructor
  · rw [List.take_succ, List.getElem?_eq_getElem he]
    rfl
  · rw [List.getElem_cons_drop, List.take_append_drop]

theorem noEnd_take_of_index (R : Rules) (l : List Stmt) (e : Nat)
    (hpre : ∀ k (hk : k < l.length), k < e → (l[k]).noEnd R) :
    ∀ t ∈ l.take e, t.noEnd R := by
  intro t ht
  rw [← List.drop_zero l] at ht
  obtain ⟨k, hk, _, hk2, rfl⟩ := mem_take_drop l 0 e t ht
  exact hpre k hk (by omega)

/-! ## The closure `unwrap` -/

theorem unwrap_arr_len (R : Rules) (n lo : Nat) (st : WrapState) :
    (unwrap R lo n st).arr = st.arr ∧ (unwrap R lo n st).len = st.len := by
  induction n generalizing lo st with
  | zero => exact ⟨rfl, rfl⟩
  | succ n ih =>
    rw [unwrap]
    exact ih (lo + 1) _

theorem unwrap_heap (R : Rules) (n lo : Nat) (st : WrapState)
    (hd : ∀ a b, lo ≤ a → a < b → b < lo + n → st.arr a ≠ st.arr b) (p : Nat) :
    ((∃ k, lo ≤ k ∧ k < lo + n ∧ st.arr k = p) →
      (unwrap R lo n st).heap p = R.unwrapStmt (st.heap p)) ∧
    ((∀ k, lo ≤ k → k < lo + n → st.arr k ≠ p) → (unwrap R lo n st).heap p = st.heap p) := by
  induction n generalizing lo st with
  | zero =>
    constructor
    · rintro ⟨k, h1, h2, _⟩
      omega
    · intro _
      rfl
  | succ n ih =>
    rw [unwrap]
    have ih1 := ih (lo + 1) (st.modify (st.arr lo) R.unwrapStmt)
      (fun a b h1 h2 h3 => hd a b (by omega) h2 (by omega))
    constructor
    · rintro ⟨k, h1, h2, h3⟩
      by_cases hk : k = lo
      · subst hk
        rw [ih1.2]
        · simp [WrapState.modify, h3]
        · intro k2 hk1 hk2 hk3
          exact hd k k2 (Nat.le_refl k) (by omega) (by omega) (by rw [h3]; exact hk3.symm)
      · rw [ih1.1 ⟨k, by omega, by omega, h3⟩]
        have hne : p ≠ st.arr lo := by
          rw [← h3]
          exact fun hh => hd lo k (Nat.le_refl lo) (by omega) (by omega) hh.symm
        simp [WrapState.modify, hne]
    · intro hno
      rw [ih1.2 (fun k h1 h2 => hno k (by omega) (by omega))]
      have hne : p ≠ st.arr lo := fun hh => hno lo (Nat.le_refl lo) (by omega) hh.symm
      simp [WrapState.modify, hne]

/-! ## A list without `dd_endwrap` -/

theorem wrapInner_noEnd (R : Rules) (i n j : Nat) (st : WrapState)
    (h : ∀ p, hasLabel R.dd_endwrap (st.heap p).Start = false) :
    wrapInner R i j n st = some st := by
  induction n generalizing j with
  | zero => rfl
  | succ n ih =>
    rw [wrapInner_skip R i j n st (h _)]
    exact ih (j + 1)

theorem replaceStart_of_noStart (R : Rules) (s : Stmt)
    (h : hasLabel R.dd_startwrap s.Start = false) :
    s.replaceStart (removeDecl R.dd_startwrap s.Start) = s := by
  rw [removeDecl_of_hasLabel_false _ _ h]
  exact Stmt.eta s

theorem wrapOuter_noEnd (R : Rules) (n i : Nat) (st : WrapState)
    (hlen : i + n ≤ st.len) (harr : ∀ k, st.arr k = k)
    (hend : ∀ p, hasLabel R.dd_endwrap (st.heap p).Start = false ∧
      hasLabel R.dd_endwrap (st.heap p).End = false) :
    wrapOuter R i n st =
      some { heap := fun p => if i ≤ p ∧ p < i + n then
                (st.heap p).replaceStart (removeDecl R.dd_startwrap (st.heap p).Start)
              else st.heap p,
             arr := st.arr, len := st.len } := by
  induction n generalizing i st with
  | zero =>
    rw [wrapOuter]
    congr 1
    cases st with
    | mk heap arr len =>
      simp only [WrapState.mk.injEq, and_true]
      funext p
      rw [if_neg (by omega)]
  | succ n ih =>
    by_cases hS : hasLabel R.dd_startwrap (st.heap (st.arr i)).Start = true
    · rw [wrapOuter_region R i n st hS (hend _).2 (by omega)]
      rw [wrapInner_noEnd R i (st.len - i) 0 (st.modify (st.arr i)
          (fun s => s.replaceStart (removeDecl R.dd_startwrap s.Start))) (by
        intro p
        simp only [WrapState.modify]
        split
        · exact hasLabel_removeDecl_of_false _ _ _ (hend _).1
        · exact (hend p).1)]
      simp only []
      rw [ih (i + 1) (st.modify (st.arr i)
          (fun s => s.replaceStart (removeDecl R.dd_startwrap s.Start)))
        (show i + 1 + n ≤ st.len by omega) harr (by
        intro p
        simp only [WrapState.modify]
        split
        · exact ⟨hasLabel_removeDecl_of_false _ _ _ (hend _).1, (hend _).2⟩
        · exact hend p)]
      congr 1
      simp only [WrapState.modify, WrapState.mk.injEq, and_true, harr]
      funext p
      by_cases hp : p = i
      · subst hp
        have h1 : ¬ (p + 1 ≤ p ∧ p < p + 1 + n) := by omega
        have h2 : p ≤ p ∧ p < p + (n + 1) := by omega
        rw [if_neg h1, if_pos h2, if_pos rfl]
      · by_cases hp2 : i + 1 ≤ p ∧ p < i + 1 + n
        · have h2 : i ≤ p ∧ p < i + (n + 1) := by omega
          rw [if_pos hp2, if_pos h2, if_neg hp]
        · have h2 : ¬ (i ≤ p ∧ p < i + (n + 1)) := by omega
          rw [if_neg hp2, if_neg h2, if_neg hp]
    · have hS : hasLabel R.dd_startwrap (st.heap (st.arr i)).Start = false := by simpa using hS
      rw [wrapOuter_skip R i n st hS, ih (i + 1) st (by omega) harr hend]
      congr 1
      simp only [WrapState.mk.injEq, and_true]
      funext p
      rw [harr] at hS
      by_cases hp : p = i
      · subst hp
        have h1 : ¬ (p + 1 ≤ p ∧ p < p + 1 + n) := by omega
        have h2 : p ≤ p ∧ p < p + (n + 1) := by omega
        rw [if_neg h1, if_pos h2, replaceStart_of_noStart R _ hS]
      · by_cases hp2 : i + 1 ≤ p ∧ p < i + 1 + n
        · have h2 : i ≤ p ∧ p < i + (n + 1) := by omega
          rw [if_pos hp2, if_pos h2]
        · have h2 : ¬ (i ≤ p ∧ p < i + (n + 1)) := by omega
          rw [if_neg hp2, if_neg h2]

/-! ## Runs of `removeStartEndWrap` in which no remover rule matches -/

theorem hasLabel_of_removeDecl (lbl pre : String) (ds : List String)
    (h : hasLabel lbl (removeDecl pre ds) = true) : hasLabel lbl ds = true := by
  cases h1 : hasLabel lbl ds
  · rw [hasLabel_removeDecl_of_false lbl pre ds h1] at h
    cases h
  · rfl

theorem hasLabel_removeDecl_other (lbl pre : String) (ds : List String)
    (hd : ∀ d : String, HasPrefix d lbl = true → HasPrefix d pre = false) :
    hasLabel lbl (removeDecl pre ds) = hasLabel lbl ds := by
  rw [removeDecl_eq_filter]
  unfold hasLabel
  induction ds with
  | nil => rfl
  | cons d ds ih =>
    rw [List.filter_cons]
    cases h1 : HasPrefix d lbl
    · cases h2 : HasPrefix d pre
      · simp [h1, ih]
      · simp [h1, ih]
    · simp [hd d h1, h1]

theorem unwrapStmt_End (R : Rules) (hU : ∀ u ∈ R.unwrappers, ∀ s : Stmt, (u s).End = s.End)
    (s : Stmt) : (R.unwrapStmt s).End = s.End := by
  unfold Rules.unwrapStmt
  generalize R.unwrappers = V at hU
  induction V generalizing s with
  | nil => rfl
  | cons u V ih =>
    simp only [List.foldl_cons]
    rw [ih (u s) (fun v hv => hU v (List.mem_cons_of_mem _ hv)), hU u (List.mem_cons_self _ _)]

theorem unwrap_decorations (R : Rules)
    (hU : ∀ u ∈ R.unwrappers, ∀ s : Stmt, (u s).Start = s.Start ∧ (u s).End = s.End)
    (n lo : Nat) (st : WrapState) (p : Nat) :
    ((unwrap R lo n st).heap p).Start = (st.heap p).Start ∧
      ((unwrap R lo n st).heap p).End = (st.heap p).End := by
  induction n generalizing lo st with
  | zero => exact ⟨rfl, rfl⟩
  | succ n ih =>
    rw [unwrap]
    have h := ih (lo + 1) (st.modify (st.arr lo) R.unwrapStmt)
    rw [h.1, h.2]
    simp only [WrapState.modify]
    split
    · rename_i hp
      subst hp
      exact ⟨unwrapStmt_Start R (fun u hu s => (hU u hu s).1) _,
        unwrapStmt_End R (fun u hu s => (hU u hu s).2) _⟩
    · exact ⟨rfl, rfl⟩

theorem unwrap_heap_below (R : Rules) (n lo : Nat) (st : WrapState)
    (harr : ∀ k, st.arr k = k) (p : Nat) (hp : p < lo) :
    (unwrap R lo n st).heap p = st.heap p := by
  refine (unwrap_heap R n lo st ?_ p).2 ?_
  · intro a b _ hab _
    rw [harr, harr]
    omega
  · intro k hk _
    rw [harr]
    omega

theorem WrapBase.atStart (R : Rules) (l : List Stmt) : WrapBase R l (WrapState.ofList l) where
  inv := WrapInv.ofList R l
  arr_id := fun _ => rfl
  len_eq := rfl

theorem WrapBase.edit {R : Rules} {l : List Stmt} {st : WrapState} (h : WrapBase R l st)
    (p : Nat) (f : Stmt → Stmt)
    (hf : ∀ a, Touched R R.unwrappers a (st.heap p) → Touched R R.unwrappers a (f (st.heap p))) :
    WrapBase R l (st.modify p f) where
  inv := h.inv.modify p f hf
  arr_id := h.arr_id
  len_eq := h.len_eq

theorem WrapBase.unwrapped {R : Rules} {l : List Stmt} {st : WrapState} (h : WrapBase R l st)
    (lo n : Nat) : WrapBase R l (unwrap R lo n st) where
  inv := h.inv.unwrap n lo
  arr_id := by
    rw [(unwrap_arr_len R n lo st).1]
    exact h.arr_id
  len_eq := by
    rw [(unwrap_arr_len R n lo st).2]
    exact h.len_eq

theorem WrapBase.remove_eq {R : Rules} {l : List Stmt} {st : WrapState} (h : WrapBase R l st)
    (hRm : ∀ rm ∈ R.removers, ∀ p (hp : p < l.length) (s : Stmt),
      Touched R R.unwrappers l[p] s → rm s = false)
    (i n : Nat) (hle : i + n ≤ l.length) : remove R i n st = some st := by
  apply remove_noMatch
  intro k _ hk2
  have hk : k < l.length := by omega
  refine ⟨by rw [h.len_eq]; exact hk, ?_⟩
  intro rm hrm
  rw [h.arr_id]
  exact hRm rm hrm k hk _ (h.inv.rel k hk)

/-- The search for `dd_endwrap` started at `i`, when no remover rule matches: every
statement it visits loses the `dd_endwrap` entries of its leading decorations, trailing
decorations are not changed, and statements before `i` are not touched. -/
theorem wrapInner_strip (R : Rules) (l : List Stmt)
    (hU : ∀ u ∈ R.unwrappers, ∀ s : Stmt, (u s).Start = s.Start ∧ (u s).End = s.End)
    (hRm : ∀ rm ∈ R.removers, ∀ p (hp : p < l.length) (s : Stmt),
      Touched R R.unwrappers l[p] s → rm s = false)
    (i n j : Nat) (st : WrapState) (hB : WrapBase R l st) (hle : i + j + n ≤ l.length) :
    ∃ st1, wrapInner R i j n st = some st1 ∧ WrapBase R l st1 ∧
      (∀ p, (st1.heap p).End = (st.heap p).End) ∧
      (∀ p, i + j ≤ p → p < i + j + n →
        (st1.heap p).Start = removeDecl R.dd_endwrap (st.heap p).Start) ∧
      (∀ p, ¬ (i + j ≤ p ∧ p < i + j + n) → (st1.heap p).Start = (st.heap p).Start) ∧
      (∀ p, p < i → st1.heap p = st.heap p) := by
  induction n generalizing j st with
  | zero =>
    exact ⟨st, rfl, hB, fun _ => rfl, fun p h1 h2 => by omega, fun _ _ => rfl, fun _ _ => rfl⟩
  | succ n ih =>
    have hq : st.arr (i + j) = i + j := hB.arr_id _
    by_cases hE : hasLabel R.dd_endwrap (st.heap (st.arr (i + j))).Start = true
    · have hB1 : WrapBase R l (st.modify (st.arr (i + j))
          (fun s => s.replaceStart (removeDecl R.dd_endwrap s.Start))) :=
        hB.edit _ _ (fun _ ha => .stripStart _ (Or.inr (Or.inl rfl)) ha)
      have hB2 := hB1.unwrapped i j
      have hrem := hB2.remove_eq hRm i j (by omega)
      obtain ⟨st3, h3, hB3, hEnd, hIn, hOut, hLow⟩ := ih (j + 1) _ hB2 (by omega)
      have hdec := fun p => unwrap_decorations R hU j i (st.modify (st.arr (i + j))
          (fun s => s.replaceStart (removeDecl R.dd_endwrap s.Start))) p
      refine ⟨st3, ?_, hB3, ?_, ?_, ?_, ?_⟩
      · rw [wrapInner_hit R i j n st hE, hrem]
        exact h3
      · intro p
        rw [hEnd p, (hdec p).2]
        simp only [WrapState.modify]
        split
        · rename_i hp
          subst hp
          rfl
        · rfl
      · intro p h1 h2
        by_cases hp : p = i + j
        · rw [hOut p (by omega), (hdec p).1]
          simp only [WrapState.modify, hq, hp, if_true]
          rfl
        · rw [hIn p (by omega) (by omega), (hdec p).1]
          simp only [WrapState.modify, hq, hp, if_false]
      · intro p hp
        have hne : p ≠ i + j := by omega
        rw [hOut p (by omega), (hdec p).1]
        simp only [WrapState.modify, hq, hne, if_false]
      · intro p hp
        have hne : p ≠ i + j := by omega
        rw [hLow p hp, unwrap_heap_below R j i _ hB1.arr_id p hp]
        simp only [WrapState.modify, hq, hne, if_false]
    · have hE : hasLabel R.dd_endwrap (st.heap (st.arr (i + j))).Start = false := by
        simpa using hE
      obtain ⟨st3, h3, hB3, hEnd, hIn, hOut, hLow⟩ := ih (j + 1) st hB (by omega)
      refine ⟨st3, ?_, hB3, hEnd, ?_, ?_, hLow⟩
      · rw [wrapInner_skip R i j n st hE]
        exact h3
      · intro p h1 h2
        by_cases hp : p = i + j
        · rw [hOut p (by omega), hp]
          rw [hq] at hE
          exact (removeDecl_of_hasLabel_false _ _ hE).symm
        · exact hIn p (by omega) (by omega)
      · intro p hp
        exact hOut p (by omega)

/-- The outer loop from index `i` on, when no remover rule matches.  Every statement from
`i` on ends without `dd_startwrap` on its leading decorations; a `dd_endwrap` is left on
trailing decorations only where the statement had no `dd_startwrap`, and on leading
decorations only where no open region start comes at or before the statement. -/
theorem wrapOuter_strip (R : Rules) (l : List Stmt)
    (hU : ∀ u ∈ R.unwrappers, ∀ s : Stmt, (u s).Start = s.Start ∧ (u s).End = s.End)
    (hRm : ∀ rm ∈ R.removers, ∀ p (hp : p < l.length) (s : Stmt),
      Touched R R.unwrappers l[p] s → rm s = false)
    (hd : ∀ d : String, HasPrefix d R.dd_startwrap = true → HasPrefix d R.dd_endwrap = false)
    (n i : Nat) (st : WrapState) (hB : WrapBase R l st) (hle : i + n ≤ l.length) :
    ∃ st1, wrapOuter R i n st = some st1 ∧ WrapBase R l st1 ∧
      (∀ p, p < i → st1.heap p = st.heap p) ∧
      (∀ p, i ≤ p → p < i + n → hasLabel R.dd_startwrap (st1.heap p).Start = false) ∧
      (∀ p, i ≤ p → p < i + n → hasLabel R.dd_endwrap (st1.heap p).End = true →
        hasLabel R.dd_startwrap (st.heap p).Start = false ∧
          hasLabel R.dd_endwrap (st.heap p).End = true) ∧
      (∀ p, i ≤ p → p < i + n → hasLabel R.dd_endwrap (st1.heap p).Start = true →
        hasLabel R.dd_endwrap (st.heap p).Start = true ∧
          ∀ q, i ≤ q → q ≤ p → ¬ (st.heap q).openStart R) ∧
      (∀ p, hasLabel R.dd_startwrap (st1.heap p).End = true →
        hasLabel R.dd_startwrap (st.heap p).End = true) := by
  induction n generalizing i st with
  | zero =>
    exact ⟨st, rfl, hB, fun _ _ => rfl, fun p h1 h2 => by omega, fun p h1 h2 => by omega,
      fun p h1 h2 => by omega, fun _ h => h⟩
  | succ n ih =>
    have hq : st.arr i = i := hB.arr_id _
    have hi : i < l.length := by omega
    by_cases hS : hasLabel R.dd_startwrap (st.heap (st.arr i)).Start = true
    · by_cases hE : hasLabel R.dd_endwrap (st.heap (st.arr i)).End = true
      · -- the region is the statement itself
        have hB2 : WrapBase R l (st.modify (st.arr i) (fun s => R.unwrapStmt
            (.mk (removeDecl R.dd_startwrap s.Start) (removeDecl R.dd_endwrap s.End) s.kind))) :=
          hB.edit _ _ (fun a ha => Touched.foldl_rules _ (fun u hu => hu)
            (Touched.stripEnd _ (Or.inr (Or.inl rfl)) (Touched.stripStart _ (Or.inl rfl) ha)))
        have hstep := wrapOuter_sameLine R i n st hS hE (by rw [hB.len_eq]; exact hi) (by
          intro rm hrm
          rw [hq]
          exact hRm rm hrm i hi _ (Touched.foldl_rules _ (fun u hu => hu)
            (Touched.stripEnd _ (Or.inr (Or.inl rfl))
              (Touched.stripStart _ (Or.inl rfl) (hB.inv.rel i hi)))))
        obtain ⟨st3, h3, hB3, hLow, hP1, hP2, hP3, hP4⟩ := ih (i + 1) _ hB2 (by omega)
        have hne : ∀ p, p ≠ i → (st.modify (st.arr i) (fun s => R.unwrapStmt
            (.mk (removeDecl R.dd_startwrap s.Start) (removeDecl R.dd_endwrap s.End)
              s.kind))).heap p = st.heap p := by
          intro p hp
          simp only [WrapState.modify, hq, hp, if_false]
        have hat : (st.modify (st.arr i) (fun s => R.unwrapStmt
            (.mk (removeDecl R.dd_startwrap s.Start) (removeDecl R.dd_endwrap s.End)
              s.kind))).heap i = R.unwrapStmt
            (.mk (removeDecl R.dd_startwrap (st.heap i).Start)
              (removeDecl R.dd_endwrap (st.heap i).End) (st.heap i).kind) := by
          simp only [WrapState.modify, hq, if_true]
        have hatS : (st3.heap i).Start = removeDecl R.dd_startwrap (st.heap i).Start := by
          rw [hLow i (by omega), hat, unwrapStmt_Start R (fun u hu s => (hU u hu s).1)]
          rfl
        have hatE : (st3.heap i).End = removeDecl R.dd_endwrap (st.heap i).End := by
          rw [hLow i (by omega), hat, unwrapStmt_End R (fun u hu s => (hU u hu s).2)]
          rfl
        rw [hq] at hS hE
        refine ⟨st3, hstep.trans h3, hB3, ?_, ?_, ?_, ?_, ?_⟩
        · intro p hp
          rw [hLow p (by omega), hne p (by omega)]
        · intro p h1 h2
          by_cases hp : p = i
          · rw [hp, hatS]
            exact hasLabel_removeDecl_self _ _
          · exact hP1 p (by omega) (by omega)
        · intro p h1 h2 h
          by_cases hp : p = i
          · rw [hp, hatE, hasLabel_removeDecl_self] at h
            cases h
          · have := hP2 p (by omega) (by omega) h
            rwa [hne p hp] at this
        · intro p h1 h2 h
          by_cases hp : p = i
          · subst hp
            rw [hatS] at h
            refine ⟨hasLabel_of_removeDecl _ _ _ h, ?_⟩
            intro q hq1 hq2 hopen
            have : q = p := by omega
            subst this
            rw [hopen.2] at hE
            cases hE
          · have h0 := hP3 p (by omega) (by omega) h
            rw [hne p hp] at h0
            refine ⟨h0.1, ?_⟩
            intro q hq1 hq2 hopen
            by_cases hqi : q = i
            · subst hqi
              rw [hopen.2] at hE
              cases hE
            · have := h0.2 q (by omega) hq2
              rw [hne q hqi] at this
              exact this hopen
        · intro p h
          have h0 := hP4 p h
          by_cases hp : p = i
          · subst hp
            rw [hat, unwrapStmt_End R (fun u hu s => (hU u hu s).2)] at h0
            exact hasLabel_of_removeDecl _ _ _ h0
          · rwa [hne p hp] at h0
      · -- an open region start: the search for the end markers runs to the end of the list
        have hE : hasLabel R.dd_endwrap (st.heap (st.arr i)).End = false := by simpa using hE
        have hB1 : WrapBase R l (st.modify (st.arr i)
            (fun s => s.replaceStart (removeDecl R.dd_startwrap s.Start))) :=
          hB.edit _ _ (fun _ ha => .stripStart _ (Or.inl rfl) ha)
        have hstep := wrapOuter_region R i n st hS hE (by rw [hB.len_eq]; omega)
        obtain ⟨st2, h2, hB2, hEnd, hIn, _, hLow2⟩ :=
          wrapInner_strip R l hU hRm i (st.len - i) 0 _ hB1 (by rw [hB.len_eq]; omega)
        obtain ⟨st3, h3, hB3, hLow, hP1, hP2, hP3, hP4⟩ := ih (i + 1) st2 hB2 (by omega)
        have hS1 : ∀ p, (st.modify (st.arr i)
            (fun s => s.replaceStart (removeDecl R.dd_startwrap s.Start))).heap p =
            if p = i then (st.heap i).replaceStart (removeDecl R.dd_startwrap (st.heap i).Start)
            else st.heap p := by
          intro p
          simp only [WrapState.modify, hq]
        have hEnd2 : ∀ p, (st2.heap p).End = (st.heap p).End := by
          intro p
          rw [hEnd p, hS1 p]
          split
          · rename_i hp
            rw [hp]
            rfl
          · rfl
        have hIn2 : ∀ p, i < p → p < l.length →
            (st2.heap p).Start = removeDecl R.dd_endwrap (st.heap p).Start := by
          intro p h1 h2
          rw [hIn p (by omega) (by rw [hB.len_eq]; omega), hS1 p, if_neg (by omega)]
        have hIni : (st2.heap i).Start =
            removeDecl R.dd_endwrap (removeDecl R.dd_startwrap (st.heap i).Start) := by
          rw [hIn i (by omega) (by rw [hB.len_eq]; omega), hS1 i, if_pos rfl]
          rfl
        rw [hq] at hS hE
        refine ⟨st3, ?_, hB3, ?_, ?_, ?_, ?_, ?_⟩
        · rw [hstep]
          have h2a : wrapInner R i 0 (st.len - i) (st.modify (st.arr i)
              (fun s => s.replaceStart (removeDecl R.dd_startwrap s.Start))) = some st2 := h2
          rw [h2a]
          exact h3
        · intro p hp
          rw [hLow p (by omega), hLow2 p hp, hS1 p, if_neg (by omega)]
        · intro p h1 h2
          by_cases hp : p = i
          · rw [hp, hLow i (by omega), hIni]
            exact hasLabel_removeDecl_of_false _ _ _ (hasLabel_removeDecl_self _ _)
          · exact hP1 p (by omega) (by omega)
        · intro p h1 h2 h
          by_cases hp : p = i
          · rw [hp, hLow i (by omega), hEnd2 i, hE] at h
            cases h
          · have h0 := hP2 p (by omega) (by omega) h
            rw [hEnd2 p, hIn2 p (by omega) (by omega),
              hasLabel_removeDecl_other _ _ _ hd] at h0
            exact h0
        · intro p h1 h2 h
          exfalso
          by_cases hp : p = i
          · rw [hp, hLow i (by omega), hIni, hasLabel_removeDecl_self] at h
            cases h
          · have h0 := (hP3 p (by omega) (by omega) h).1
            rw [hIn2 p (by omega) (by omega), hasLabel_removeDecl_self] at h0
            cases h0
        · intro p h
          have h0 := hP4 p h
          rwa [hEnd2 p] at h0
    · have hS : hasLabel R.dd_startwrap (st.heap (st.arr i)).Start = false := by simpa using hS
      obtain ⟨st3, h3, hB3, hLow, hP1, hP2, hP3, hP4⟩ := ih (i + 1) st hB (by omega)
      rw [hq] at hS
      refine ⟨st3, ?_, hB3, ?_, ?_, ?_, ?_, hP4⟩
      · rw [wrapOuter_skip R i n st (by rw [hq]; exact hS)]
        exact h3
      · intro p hp
        exact hLow p (by omega)
      · intro p h1 h2
        by_cases hp : p = i
        · rw [hp, hLow i (by omega)]
          exact hS
        · exact hP1 p (by omega) (by omega)
      · intro p h1 h2 h
        by_cases hp : p = i
        · rw [hp, hLow i (by omega)] at h
          rw [hp]
          exact ⟨hS, h⟩
        · exact hP2 p (by omega) (by omega) h
      · intro p h1 h2 h
        by_cases hp : p = i
        · subst hp
          rw [hLow p (by omega)] at h
          refine ⟨h, ?_⟩
          intro q hq1 hq2 hopen
          have : q = p := by omega
          subst this
          rw [hopen.1] at hS
          cases hS
        · have h0 := hP3 p (by omega) (by omega) h
          refine ⟨h0.1, ?_⟩
          intro q hq1 hq2 hopen
          by_cases hqi : q = i
          · subst hqi
            rw [hopen.1] at hS
            cases hS
          · exact h0.2 q (by omega) hq2 hopen

/-! ## The example rules -/

theorem exampleRemover_exampleUnwrap (b : Stmt) :
    exampleRemover (exampleUnwrap b) = exampleRemover b := by
  unfold exampleUnwrap
  split <;> rfl

theorem exampleRemover_of_touched {a s : Stmt} (ha : exampleRemover a = false)
    (h : Touched exampleRules exampleRules.unwrappers a s) : exampleRemover s = false := by
  induction h with
  | refl => exact ha
  | stripStart m _ _ ih => exact ih
  | stripEnd m _ _ ih => exact ih
  | rule u hu _ ih =>
    simp only [exampleRules, List.mem_singleton] at hu
    subst hu
    rw [exampleRemover_exampleUnwrap]
    exact ih

theorem exampleRules_markers_apart :
    ∀ d : String, HasPrefix d exampleRules.dd_startwrap = true →
      HasPrefix d exampleRules.dd_endwrap = false := by
  intro d h
  unfold HasPrefix at *
  simp only [exampleRules] at *
  rcases d with ⟨cs⟩
  show List.isPrefixOf "//dd:endwrap".data cs = false
  have h : List.isPrefixOf "//dd:startwrap".data cs = true := h
  rw [List.isPrefixOf_iff_prefix] at h
  obtain ⟨t, rfl⟩ := h
  rfl

/-! ## The walk of `UninstrumentFile` -/

theorem forEach_forall₂ {α : Type} (f : α → Option α) (l l1 : List α)
    (h : forEach f l = some l1) : List.Forall₂ (fun a b => f a = some b) l l1 := by
  induction l generalizing l1 with
  | nil =>
    simp only [forEach, Option.some.injEq] at h
    subst h
    exact List.Forall₂.nil
  | cons a l ih =>
    simp only [forEach] at h
    cases hf : f a with
    | none => simp [hf] at h
    | some b =>
      cases hr : forEach f l with
      | none => simp [hf, hr] at h
      | some bs =>
        simp only [hf, hr, Option.some.injEq] at h
        subst h
        exact List.Forall₂.cons hf (ih bs hr)

theorem foldr_walked {α : Type} (erase : α → α) (reach : α → List (List Stmt))
    (P : List Stmt → List Stmt → Prop) {l l1 : List α}
    (h : List.Forall₂ (fun a b => erase b = erase a ∧ List.Forall₂ P (reach a) (reach b)) l l1) :
    l1.map erase = l.map erase ∧
      List.Forall₂ P (l.foldr (fun x acc => reach x ++ acc) [])
        (l1.foldr (fun x acc => reach x ++ acc) []) := by
  induction h with
  | nil => exact ⟨rfl, List.Forall₂.nil⟩
  | cons hab _ ih =>
    refine ⟨?_, ?_⟩
    · simp only [List.map_cons, hab.1, ih.1]
    · simp only [List.foldr_cons]
      exact List.rel_append hab.2 ih.2

theorem walkElt_walked (R : Rules) (x y : Expr) (h : walkElt R x = some y) :
    eraseElt y = eraseElt x ∧
      List.Forall₂ (fun b b1 => removePasses R b = some b1) (reachedInElt x) (reachedInElt y) := by
  unfold walkElt at h
  split at h
  · rename_i k body
    cases hp : removePasses R body with
    | none => simp [hp] at h
    | some b1 =>
      simp only [hp, Option.some.injEq] at h
      subst h
      exact ⟨rfl, List.Forall₂.cons hp List.Forall₂.nil⟩
  · rename_i hx
    simp only [Option.some.injEq] at h
    subst h
    refine ⟨rfl, ?_⟩
    have : reachedInElt x = [] := by
      unfold reachedInElt
      split
      · exact absurd rfl (hx _ _)
      · rfl
    rw [this]
    exact List.Forall₂.nil

theorem walkRhs_walked (R : Rules) (x y : Expr) (h : walkRhs R x = some y) :
    eraseRhs y = eraseRhs x ∧
      List.Forall₂ (fun b b1 => removePasses R b = some b1) (reachedInRhs x) (reachedInRhs y) := by
  unfold walkRhs at h
  split at h
  · rename_i elts
    cases hp : forEach (walkElt R) elts with
    | none => simp [hp] at h
    | some es =>
      simp only [hp, Option.some.injEq] at h
      subst h
      have hw := foldr_walked eraseElt reachedInElt (fun b b1 => removePasses R b = some b1)
        ((forEach_forall₂ _ _ _ hp).imp (fun a b hab => walkElt_walked R a b hab))
      exact ⟨by simp only [eraseRhs, hw.1], hw.2⟩
  · rename_i body
    cases hp : removePasses R body with
    | none => simp [hp] at h
    | some b1 =>
      simp only [hp, Option.some.injEq] at h
      subst h
      exact ⟨rfl, List.Forall₂.cons hp List.Forall₂.nil⟩
  · rename_i hx1 hx2
    simp only [Option.some.injEq] at h
    subst h
    refine ⟨rfl, ?_⟩
    have : reachedInRhs x = [] := by
      unfold reachedInRhs
      split
      · exact absurd rfl (hx2 _)
      · exact absurd rfl (hx1 _)
      · rfl
    rw [this]
    exact List.Forall₂.nil

theorem walkStmt_walked (R : Rules) (s s1 : Stmt) (h : walkStmt R s = some s1) :
    stmtWalked R s s1 := by
  unfold walkStmt at h
  split at h
  · rename_i a e lhs rhs
    cases hp : forEach (walkRhs R) rhs with
    | none => simp [hp] at h
    | some r =>
      simp only [hp, Option.some.injEq] at h
      subst h
      have hw := foldr_walked eraseRhs reachedInRhs (fun b b1 => removePasses R b = some b1)
        ((forEach_forall₂ _ _ _ hp).imp (fun a b hab => walkRhs_walked R a b hab))
      exact ⟨by simp only [eraseReached, hw.1], hw.2⟩
  · rename_i a e body args
    cases hp : removePasses R body with
    | none => simp [hp] at h
    | some b1 =>
      simp only [hp, Option.some.injEq] at h
      subst h
      exact ⟨rfl, List.Forall₂.cons hp List.Forall₂.nil⟩
  · rename_i hs1 hs2
    simp only [Option.some.injEq] at h
    subst h
    refine ⟨rfl, ?_⟩
    have : reachedBodies s = [] := by
      unfold reachedBodies
      split
      · exact absurd rfl (hs1 _ _ _ _)
      · exact absurd rfl (hs2 _ _ _ _)
      · rfl
    rw [this]
    exact List.Forall₂.nil

theorem uninstrumentDecl_walked (R : Rules) (d d1 : Decl) (h : uninstrumentDecl R d = some d1) :
    declWalked R d d1 := by
  cases d with
  | other tag =>
    simp only [uninstrumentDecl, Option.some.injEq] at h
    exact h.symm
  | FuncDecl body =>
    cases body with
    | none => simp [uninstrumentDecl] at h
    | some body =>
      simp only [uninstrumentDecl, uninstrumentBody] at h
      cases hp : removePasses R body with
      | none => simp [hp] at h
      | some top =>
        cases hw : forEach (walkStmt R) top with
        | none => simp [hp, hw] at h
        | some out =>
          simp only [hp, hw, Option.some.injEq] at h
          exact ⟨top, out, hp,
            (forEach_forall₂ _ _ _ hw).imp (fun a b hab => walkStmt_walked R a b hab), h.symm⟩

theorem Touched.kind_of_noRewrite {R : Rules} {U : List (Stmt → Stmt)} {a b : Stmt}
    (h : Touched R U a b)
    (hK : ∀ u ∈ U, ∀ x : Stmt, x.kind = a.kind → (u x).kind = x.kind) : b.kind = a.kind := by
  induction h with
  | refl => rfl
  | stripStart m _ _ ih => exact ih
  | stripEnd m _ _ ih => exact ih
  | rule u hu _ ih => rw [hK u hu _ ih, ih]

theorem removePasses_frame (R : Rules) (b b1 : List Stmt) (h : removePasses R b = some b1) :
    Frame (Touched R R.unwrappers) b b1 := by
  unfold removePasses at h
  cases hw : removeStartEndWrap R b with
  | none => simp [hw] at h
  | some l1 =>
    simp only [hw, Option.some.injEq] at h
    subst h
    have h1 := removeStartEndWrap_frame R b l1 hw
    obtain ⟨k2, hk2, hf2⟩ := removeStartEndInstrument_frame R l1
    exact Frame.compose (P := Touched R R.unwrappers) (fun _ _ _ h1 h2 => Touched.trans h1 h2) h1
      ⟨k2, hk2, hf2.imp (fun _ _ hab => hab.mono)⟩

theorem removePasses_kinds (R : Rules) (b b1 : List Stmt) (h : removePasses R b = some b1)
    (hK : ∀ u ∈ R.unwrappers, ∀ t ∈ b, ∀ x : Stmt, x.kind = t.kind → (u x).kind = x.kind) :
    ∃ kept : List Stmt, kept.Sublist b ∧ List.Forall₂ (fun a c => c.kind = a.kind) kept b1 := by
  obtain ⟨kept, hk, hf⟩ := removePasses_frame R b b1 h
  refine ⟨kept, hk, ?_⟩
  have hmem : ∀ a ∈ kept, a ∈ b := fun a ha => hk.subset ha
  clear hk h
  induction hf with
  | nil => exact List.Forall₂.nil
  | cons hab _ ih =>
    refine List.Forall₂.cons ?_ (ih (fun a ha => hmem a (List.mem_cons_of_mem _ ha)))
    exact hab.kind_of_noRewrite (fun u hu x hx => hK u hu _ (hmem _ (List.mem_cons_self _ _)) x hx)

/-! ## The claims -/

/-- C1. Identity on clean input: when no statement of the sequence carries any of the
five markers on its leading or trailing decorations, `removeStartEndWrap` returns the
sequence unchanged (and does not panic) and so does `removeStartEndInstrument`. -/
theorem clean_input_identity (R : Rules) (l : List Stmt) (h : ∀ s ∈ l, s.clean R) :
    removeStartEndWrap R l = some l ∧ removeStartEndInstrument R l = l := by
  constructor
  · exact removeStartEndWrap_noStart R l (fun s hs => (h s hs).1)
  · rw [removeStartEndInstrument_noEnd R l
      (fun s hs => ⟨(h s hs).2.2.2.2.2.2.1, (h s hs).2.2.2.2.2.2.2.1⟩)]
    conv_rhs => rw [← List.map_id l]
    apply List.map_congr_left
    intro s hs
    exact stripInstrumented_of_false R s (h s hs).2.2.2.2.2.2.2.2.1

/-- Witness of C1: a two-statement body with ordinary comments only. -/
theorem clean_input_identity_witness :
    removeStartEndWrap exampleRules
        [.mk ["// a comment"] [] (.other 0), .mk [] ["// trailing"] (.other 1)] =
      some [.mk ["// a comment"] [] (.other 0), .mk [] ["// trailing"] (.other 1)] ∧
    removeStartEndInstrument exampleRules
        [.mk ["// a comment"] [] (.other 0), .mk [] ["// trailing"] (.other 1)] =
      [.mk ["// a comment"] [] (.other 0), .mk [] ["// trailing"] (.other 1)] :=
  clean_input_identity exampleRules _ (by
    intro s hs
    simp only [List.mem_cons, List.mem_singleton, List.not_mem_nil, or_false] at hs
    rcases hs with rfl | rfl <;> (unfold Stmt.clean; decide))

/-- C6. `removeDecl` is an order-preserving filter: the result is the sub-sequence of
`ds` made of exactly the entries that do not start with the prefix, in their order and
multiplicity; it is `ds` itself exactly when no entry starts with the prefix; and
applying it a second time changes nothing. -/
theorem removeDecl_filter (pre : String) (ds : Decorations) :
    removeDecl pre ds = ds.filter (fun d => !HasPrefix d pre) ∧
    (removeDecl pre ds).Sublist ds ∧
    (removeDecl pre ds = ds ↔ hasLabel pre ds = false) ∧
    removeDecl pre (removeDecl pre ds) = removeDecl pre ds := by
  refine ⟨removeDecl_eq_filter pre ds, ?_, ?_, ?_⟩
  · rw [removeDecl_eq_filter]
    exact List.filter_sublist _
  · constructor
    · intro h
      rw [← h]
      exact hasLabel_removeDecl_self pre ds
    · exact removeDecl_of_hasLabel_false pre ds
  · exact removeDecl_of_hasLabel_false pre _ (hasLabel_removeDecl_self pre ds)

/-- C4. Span with a leading end marker: when the only `dd_startinstrument` sits on the
leading decorations of `l[s]`, the only `dd_endinstrument` on the leading decorations of
`l[e]` and `s < e`, `removeStartEndInstrument` returns `l[0..s)` followed by `l[e..]`:
the statements `s..e-1` are gone, `l[e]` is kept with the end marker stripped, and the
other statements are kept in order (the loop strips a leading `dd_instrumented` tag from
every statement it keeps). -/
theorem span_leading_end (R : Rules) (l : List Stmt) (s e : Nat) (hse : s < e)
    (he : e < l.length)
    (hS : hasLabel R.dd_startinstrument (l[s]).Start = true)
    (hE : hasLabel R.dd_endinstrument (l[e]).Start = true)
    (hS1 : ∀ k (hk : k < l.length), k ≠ s → hasLabel R.dd_startinstrument (l[k]).Start = false)
    (hE1 : ∀ k (hk : k < l.length), k ≠ e → (l[k]).noEnd R) :
    removeStartEndInstrument R l =
      (l.take s ++ removeDecoration R.dd_endinstrument l[e] :: l.drop (e + 1)).map
        (stripInstrumented R) := by
  obtain ⟨h1, h2⟩ := split_at_two l s e hse he
  have hp : ∀ t ∈ l.take e, t.noEnd R := by
    intro t ht
    rw [← List.drop_zero l] at ht
    obtain ⟨k, hk, _, hk2, rfl⟩ := mem_take_drop l 0 e t ht
    exact hE1 k hk (by omega)
  have hq : ∀ t ∈ l.drop (e + 1), t.noEnd R := by
    intro t ht
    rw [← List.take_length (l.drop (e + 1))] at ht
    obtain ⟨k, hk, hk1, _, rfl⟩ := mem_take_drop l (e + 1) _ t ht
    exact hE1 k hk (by omega)
  have key := removeStartEndInstrument_leading R (l.take e) l[e] (l.drop (e + 1)) hp hE hq
  rw [← h2] at key
  rw [key]
  have hst : startAfter R 0 0 (l.take e ++ [l[e]]) = s := by
    rw [h1, List.append_assoc, List.cons_append, startAfter_last R _ _ _ _ _ hS]
    · simp [Nat.min_eq_left (by omega : s ≤ l.length)]
    · intro t ht
      rcases List.mem_append.1 ht with ht | ht
      · obtain ⟨k, hk, hk1, _, rfl⟩ := mem_take_drop l (s + 1) _ t ht
        exact hS1 k hk (by omega)
      · rw [List.mem_singleton.1 ht]
        exact hS1 e he (by omega)
  rw [hst, List.take_take, Nat.min_eq_left (Nat.le_of_lt hse)]

/-- Witness of C4: `[A, start, X, end, Y]` becomes `[A, end', Y]`. -/
theorem span_leading_end_witness :
    removeStartEndInstrument exampleRules
        [.mk [] [] (.other 0), .mk ["//dd:startinstrument"] [] (.other 1),
          .mk [] [] (.other 2), .mk ["//dd:endinstrument", "// c"] [] (.other 3),
          .mk [] [] (.other 4)] =
      [.mk [] [] (.other 0), .mk ["// c"] [] (.other 3), .mk [] [] (.other 4)] :=
  Eq.trans (span_leading_end exampleRules
    [.mk [] [] (.other 0), .mk ["//dd:startinstrument"] [] (.other 1),
      .mk [] [] (.other 2), .mk ["//dd:endinstrument", "// c"] [] (.other 3),
      .mk [] [] (.other 4)] 1 3 (by decide) (by decide) (by decide) (by decide)
    (by
      intro k hk hne
      have hk : k < 5 := hk
      interval_cases k <;> first | exact absurd rfl hne | rfl)
    (by
      intro k hk hne
      have hk : k < 5 := hk
      interval_cases k <;> first | exact absurd rfl hne | exact ⟨rfl, rfl⟩)) rfl

/-- C5, the code at the failing input: in `[A, start, end-trailing, Y]` the statement `Y`
that follows the end-tagged statement is dropped with the span, only `[A]` is left. -/
theorem span_trailing_end_drops_tail :
    removeStartEndInstrument exampleRules
        [.mk [] [] (.other 0), .mk ["//dd:startinstrument"] [] (.other 1),
          .mk [] ["//dd:endinstrument"] (.other 2), .mk [] [] (.other 3)] =
      [.mk [] [] (.other 0)] := by
  rfl

/-- C10, the claim fails for a tag on trailing decorations: a statement that carries
`dd_instrumented` only on its trailing decorations, in a list without span markers,
comes back with the tag still there. -/
theorem instrumented_trailing_kept :
    (Stmt.mk [] ["//dd:instrumented"] (.other 0)).noEnd exampleRules ∧
    hasLabel exampleRules.dd_startinstrument
      (Stmt.mk [] ["//dd:instrumented"] (.other 0)).Start = false ∧
    hasLabel exampleRules.dd_instrumented
      (Stmt.mk [] ["//dd:instrumented"] (.other 0)).End = true ∧
    removeStartEndInstrument exampleRules [.mk [] ["//dd:instrumented"] (.other 0)] =
      [.mk [] ["//dd:instrumented"] (.other 0)] := by
  refine ⟨by unfold Stmt.noEnd; decide, by decide, by decide, rfl⟩

/-- C10, amended. In a list where no statement carries `dd_endinstrument`,
`removeStartEndInstrument` deletes nothing: the result has the same length and holds the
same statements in the same order, a statement that carried `dd_instrumented` on its
leading decorations carries it in neither slot, and any other statement is returned as
it was. -/
theorem instrumented_tag_stripped (R : Rules) (l : List Stmt) (h : ∀ s ∈ l, s.noEnd R) :
    removeStartEndInstrument R l = l.map (stripInstrumented R) ∧
    (removeStartEndInstrument R l).length = l.length ∧
    ∀ s ∈ l, (stripInstrumented R s).kind = s.kind ∧
      ((hasLabel R.dd_instrumented s.Start = true ∧
          hasLabel R.dd_instrumented (stripInstrumented R s).Start = false ∧
          hasLabel R.dd_instrumented (stripInstrumented R s).End = false) ∨
        (hasLabel R.dd_instrumented s.Start = false ∧ stripInstrumented R s = s)) := by
  have h0 := removeStartEndInstrument_noEnd R l h
  refine ⟨h0, by rw [h0, List.length_map], ?_⟩
  intro s _
  unfold stripInstrumented
  by_cases hi : hasLabel R.dd_instrumented s.Start = true
  · simp [hi, removeDecoration_kind, removeDecoration_Start, removeDecoration_End,
      hasLabel_removeDecl_self]
  · simp [hi]

/-- Witness of C10 (amended): a tagged statement between two plain ones. -/
theorem instrumented_tag_stripped_witness :
    removeStartEndInstrument exampleRules
        [.mk ["//dd:instrumented", "// c"] ["//dd:instrumented"] (.other 0),
          .mk [] [] (.other 1)] =
      [.mk ["// c"] [] (.other 0), .mk [] [] (.other 1)] := by
  have h := (instrumented_tag_stripped exampleRules
    [.mk ["//dd:instrumented", "// c"] ["//dd:instrumented"] (.other 0),
      .mk [] [] (.other 1)] (by
        intro s hs
        simp only [List.mem_cons, List.mem_singleton, List.not_mem_nil, or_false] at hs
        rcases hs with rfl | rfl <;> (unfold Stmt.noEnd; decide))).1
  rw [h]
  rfl

/-- C7. `removeUseMiddleware` matches only the exact shape: it returns true exactly for an
expression statement whose expression is a call, with a selector callee of member name
`Use`, with exactly one argument, for which `funcIdent` succeeds with the given name
and the path `github.com/datadog/orchestrion/instrument`; a call with no argument or
with two or more arguments is never matched. -/
theorem removeUseMiddleware_exact_shape (funcIdent : Expr → Option Ident) (name : String) :
    (∀ stmt : Stmt, removeUseMiddleware funcIdent stmt name = true ↔
      ∃ X Sel arg fn, stmt.kind = .ExprStmt (.CallExpr (.SelectorExpr X Sel) [arg]) ∧
        Sel.Name = "Use" ∧ funcIdent arg = some fn ∧ fn.Name = name ∧
        fn.Path = "github.com/datadog/orchestrion/instrument") ∧
    (∀ s e f, removeUseMiddleware funcIdent (.mk s e (.ExprStmt (.CallExpr f []))) name = false) ∧
    (∀ s e f a b rest,
      removeUseMiddleware funcIdent (.mk s e (.ExprStmt (.CallExpr f (a :: b :: rest)))) name =
        false) := by
  refine ⟨?_, ?_, ?_⟩
  · intro stmt
    cases stmt with
    | mk s e k =>
      cases k with
      | ExprStmt X =>
        cases X with
        | CallExpr Fun Args =>
          cases Fun with
          | SelectorExpr X Sel =>
            cases Args with
            | nil => simp [removeUseMiddleware, Stmt.kind]
            | cons a rest =>
              cases rest with
              | nil =>
                cases hf : funcIdent a with
                | none => simp [removeUseMiddleware, Stmt.kind, hf]
                | some fn =>
                  by_cases hU : Sel.Name = "Use"
                  · simp only [removeUseMiddleware, Stmt.kind, hf, hU]
                    simp only [ne_eq, not_true_eq_false, if_false, List.length_singleton,
                      List.getElem?_cons_zero, hf, Bool.and_eq_true, decide_eq_true_eq]
                    constructor
                    · rintro ⟨h1, h2⟩
                      exact ⟨X, Sel, a, fn, rfl, hU, hf, h1, h2⟩
                    · rintro ⟨X1, Sel1, arg, fn1, hk, _, hf1, h1, h2⟩
                      injection hk with hk
                      injection hk with _ hk
                      injection hk with hk _
                      subst hk
                      rw [hf] at hf1
                      injection hf1 with hf1
                      subst hf1
                      exact ⟨h1, h2⟩
                  · simp [removeUseMiddleware, Stmt.kind, hf, hU]
              | cons b rest => simp [removeUseMiddleware, Stmt.kind]
          | _ => simp [removeUseMiddleware, Stmt.kind]
        | _ => simp [removeUseMiddleware, Stmt.kind]
      | _ => simp [removeUseMiddleware, Stmt.kind]
  · intro s e f
    cases f <;> simp [removeUseMiddleware, Stmt.kind]
  · intro s e f a b rest
    cases f <;> simp [removeUseMiddleware, Stmt.kind]

theorem exampleRules_keep_decorations :
    ∀ u ∈ exampleRules.unwrappers, ∀ s : Stmt, (u s).Start = s.Start ∧ (u s).End = s.End := by
  intro u hu s
  simp only [exampleRules, List.mem_singleton] at hu
  subst hu
  unfold exampleUnwrap
  split <;> exact ⟨rfl, rfl⟩

/-- C9. Round-trip fidelity of untouched material: the result of `removeStartEndInstrument`
is a sub-sequence of the input statements, in their order, each with the shape it had and
with the same non-marker entries, in the same order, in its leading and in its trailing
decorations; and when the unwrap rules leave statement decorations alone, whatever
`removeStartEndWrap` returns is a sub-sequence of the input statements, in their order,
each with the same non-marker entries in both slots.  Holds for every placement of the
markers, well-paired or not. -/
theorem roundtrip_fidelity (R : Rules) (l : List Stmt)
    (hU : ∀ u ∈ R.unwrappers, ∀ s : Stmt, (u s).Start = s.Start ∧ (u s).End = s.End) :
    (∃ kept : List Stmt, kept.Sublist l ∧
      List.Forall₂ (sameStatement R) kept (removeStartEndInstrument R l)) ∧
    ∀ out, removeStartEndWrap R l = some out →
      ∃ kept : List Stmt, kept.Sublist l ∧ List.Forall₂ (sameDecorations R) kept out := by
  constructor
  · obtain ⟨kept, hk, hf⟩ := removeStartEndInstrument_frame R l
    refine ⟨kept, hk, hf.imp ?_⟩
    intro a b hab
    exact ⟨hab.kind_eq, hab.unmarked_eq (fun u hu => by cases hu)⟩
  · intro out hout
    obtain ⟨kept, hk, hf⟩ := removeStartEndWrap_frame R l out hout
    exact ⟨kept, hk, hf.imp (fun a b hab => hab.unmarked_eq hU)⟩

/-- Witness of C9: a span and a region with ordinary comments next to the markers. -/
theorem roundtrip_fidelity_witness :
    (∃ kept : List Stmt,
      kept.Sublist [.mk ["// a"] [] (.other 0), .mk ["//dd:startinstrument"] [] (.other 1),
        .mk ["// b", "//dd:endinstrument", "// c"] ["// d"] (.other 2)] ∧
      List.Forall₂ (sameStatement exampleRules) kept
        (removeStartEndInstrument exampleRules
          [.mk ["// a"] [] (.other 0), .mk ["//dd:startinstrument"] [] (.other 1),
            .mk ["// b", "//dd:endinstrument", "// c"] ["// d"] (.other 2)])) ∧
    ∃ kept : List Stmt,
      kept.Sublist [.mk ["// a", "//dd:startwrap"] ["// b"] (.other 1),
        .mk ["//dd:endwrap", "// c"] [] (.other 3)] ∧
      List.Forall₂ (sameDecorations exampleRules) kept
        [.mk ["// a"] ["// b"] (.other 2), .mk ["// c"] [] (.other 3)] :=
  ⟨(roundtrip_fidelity exampleRules _ exampleRules_keep_decorations).1,
    (roundtrip_fidelity exampleRules
      [.mk ["// a", "//dd:startwrap"] ["// b"] (.other 1),
        .mk ["//dd:endwrap", "// c"] [] (.other 3)] exampleRules_keep_decorations).2 _ rfl⟩

/-- C8, the claim fails for the body two levels deep.  In
`x := func() { /*start*/ y := func() { t } /*end*/ }` the statement `y := ...` of the
first-level body is a region; the unwrap rule, which descends into the statement, rewrites
the statement `t` of the nested literal (`other 1` into `other 2`): the nested body is not
left unchanged. -/
theorem nested_literal_rewritten_by_unwrap :
    UninstrumentFile deepRules
        [.FuncDecl (some [.mk [] [] (.AssignStmt [.other 0] [.FuncLit
          [.mk ["//dd:startwrap"] ["//dd:endwrap"] (.AssignStmt [.other 0]
            [.FuncLit [.mk ["// c"] [] (.other 1)]])]])])] =
      some [.FuncDecl (some [.mk [] [] (.AssignStmt [.other 0] [.FuncLit
          [.mk [] [] (.AssignStmt [.other 0]
            [.FuncLit [.mk ["// c"] [] (.other 2)]])]])])] ∧
    [Stmt.mk ["// c"] [] (.other 2)] ≠ [Stmt.mk ["// c"] [] (.other 1)] := by
  refine ⟨rfl, ?_⟩
  intro h
  simp at h

/-- C8, amended. Nested closure reach is one level.  When `UninstrumentFile` returns, every
function declaration has had its body run through the two passes, and every statement of
that processed body comes back with the body of each function literal at position (1),
(2) or (3) replaced by what the two passes return for it and with nothing else changed
(`declWalked`, `stmtWalked`).  The passes are not run on a literal nested in such a body:
the statements they keep of a body `b` are edited only on their own decorations and by
the unwrap rules, so when no unwrap rule changes the shape of a statement of `b`, every
statement kept has the shape it had, nested literals and their markers included. -/
theorem nested_closure_one_level (R : Rules) (decls outs : List Decl)
    (h : UninstrumentFile R decls = some outs) :
    List.Forall₂ (declWalked R) decls outs ∧
    ∀ b b1, removePasses R b = some b1 →
      (∀ u ∈ R.unwrappers, ∀ t ∈ b, ∀ x : Stmt, x.kind = t.kind → (u x).kind = x.kind) →
      ∃ kept : List Stmt, kept.Sublist b ∧ List.Forall₂ (fun a c => c.kind = a.kind) kept b1 := by
  refine ⟨?_, fun b b1 hb hK => removePasses_kinds R b b1 hb hK⟩
  exact (forEach_forall₂ _ _ _ h).imp (fun d d1 hd => uninstrumentDecl_walked R d d1 hd)

/-- Witness of C8 (amended): in `x := func() { ... }` the region of the literal's body is
processed (markers stripped), and the literal nested in that body keeps its statement and
its markers. -/
theorem nested_closure_one_level_witness :
    List.Forall₂ (declWalked exampleRules)
      [.other 4, .FuncDecl (some [.mk [] [] (.AssignStmt [.other 0] [.FuncLit
        [.mk ["//dd:startwrap"] ["//dd:endwrap"] (.other 5),
          .mk [] [] (.AssignStmt [.other 0]
            [.FuncLit [.mk ["//dd:startwrap"] ["//dd:endwrap"] (.other 1)]])]])])]
      [.other 4, .FuncDecl (some [.mk [] [] (.AssignStmt [.other 0] [.FuncLit
        [.mk [] [] (.other 5),
          .mk [] [] (.AssignStmt [.other 0]
            [.FuncLit [.mk ["//dd:startwrap"] ["//dd:endwrap"] (.other 1)]])]])])] ∧
    ∃ kept : List Stmt,
      kept.Sublist [.mk ["//dd:startwrap"] ["//dd:endwrap"] (.other 5),
          .mk [] [] (.AssignStmt [.other 0]
            [.FuncLit [.mk ["//dd:startwrap"] ["//dd:endwrap"] (.other 1)]])] ∧
      List.Forall₂ (fun (a c : Stmt) => c.kind = a.kind) kept
        [.mk [] [] (.other 5),
          .mk [] [] (.AssignStmt [.other 0]
            [.FuncLit [.mk ["//dd:startwrap"] ["//dd:endwrap"] (.other 1)]])] :=
  have h := nested_closure_one_level exampleRules
    [.other 4, .FuncDecl (some [.mk [] [] (.AssignStmt [.other 0] [.FuncLit
      [.mk ["//dd:startwrap"] ["//dd:endwrap"] (.other 5),
        .mk [] [] (.AssignStmt [.other 0]
          [.FuncLit [.mk ["//dd:startwrap"] ["//dd:endwrap"] (.other 1)]])]])])]
    [.other 4, .FuncDecl (some [.mk [] [] (.AssignStmt [.other 0] [.FuncLit
      [.mk [] [] (.other 5),
        .mk [] [] (.AssignStmt [.other 0]
          [.FuncLit [.mk ["//dd:startwrap"] ["//dd:endwrap"] (.other 1)]])]])])] rfl
  ⟨h.1, h.2
    [.mk ["//dd:startwrap"] ["//dd:endwrap"] (.other 5),
      .mk [] [] (.AssignStmt [.other 0]
        [.FuncLit [.mk ["//dd:startwrap"] ["//dd:endwrap"] (.other 1)]])]
    [.mk [] [] (.other 5),
      .mk [] [] (.AssignStmt [.other 0]
        [.FuncLit [.mk ["//dd:startwrap"] ["//dd:endwrap"] (.other 1)]])] rfl (by
    intro u hu t ht x hx
    simp only [exampleRules, List.mem_singleton] at hu
    subst hu
    simp only [List.mem_cons, List.mem_singleton, List.not_mem_nil, or_false] at ht
    rcases x with ⟨a, e, k⟩
    rcases ht with rfl | rfl
    · have hk : k = .other 5 := hx
      subst hk
      rfl
    · have hk : k = .AssignStmt [.other 0]
          [.FuncLit [.mk ["//dd:startwrap"] ["//dd:endwrap"] (.other 1)]] := hx
      subst hk
      rfl)⟩

/-- C3, the claim fails: the statement that carries `dd_startwrap` and `dd_endwrap` is not
deleted; `[A, S, D]` comes back with three statements, `S` unwrapped and without its
markers. -/
theorem same_line_region_kept :
    hasLabel exampleRules.dd_startwrap (Stmt.mk ["//dd:startwrap"] ["//dd:endwrap"] (.other 1)).Start
      = true ∧
    hasLabel exampleRules.dd_endwrap (Stmt.mk ["//dd:startwrap"] ["//dd:endwrap"] (.other 1)).End
      = true ∧
    (Stmt.mk [] [] (.other 0)).clean exampleRules ∧ (Stmt.mk [] [] (.other 3)).clean exampleRules ∧
    removeStartEndWrap exampleRules
        [.mk [] [] (.other 0), .mk ["//dd:startwrap"] ["//dd:endwrap"] (.other 1),
          .mk [] [] (.other 3)] =
      some [.mk [] [] (.other 0), .mk [] [] (.other 2), .mk [] [] (.other 3)] ∧
    removeStartEndWrap exampleRules
        [.mk [] [] (.other 0), .mk ["//dd:startwrap"] ["//dd:endwrap"] (.other 1),
          .mk [] [] (.other 3)] ≠
      some [.mk [] [] (.other 0), .mk [] [] (.other 3)] := by
  refine ⟨by decide, by decide, by unfold Stmt.clean; decide, by unfold Stmt.clean; decide,
    rfl, ?_⟩
  intro h
  have h2 := congrArg (Option.map List.length) h
  revert h2
  decide

/-- C3, amended. For `[A, S, D]` with `dd_startwrap` on the leading and `dd_endwrap` on the
trailing decorations of `S` and no marker on `A` and `D`, when no remover rule matches
the unwrapped `S`, `removeStartEndWrap` returns `[A, S1, D]`: nothing is deleted, `S1`
is `S` with the two markers stripped and the unwrap rules applied. -/
theorem same_line_region_unwrapped (R : Rules) (A S D : Stmt)
    (hA : A.clean R) (hD : D.clean R)
    (hS : hasLabel R.dd_startwrap S.Start = true) (hE : hasLabel R.dd_endwrap S.End = true)
    (hrm : ∀ rm ∈ R.removers,
      rm (R.unwrapStmt (.mk (removeDecl R.dd_startwrap S.Start)
        (removeDecl R.dd_endwrap S.End) S.kind)) = false) :
    removeStartEndWrap R [A, S, D] =
      some [A, R.unwrapStmt (.mk (removeDecl R.dd_startwrap S.Start)
        (removeDecl R.dd_endwrap S.End) S.kind), D] := by
  unfold removeStartEndWrap
  show (wrapOuter R 0 3 (WrapState.ofList [A, S, D])).map WrapState.toList = _
  rw [wrapOuter_skip R 0 2 _ hA.1,
    wrapOuter_sameLine R 1 1 _ hS hE (by simp [WrapState.ofList]) hrm,
    wrapOuter_skip R 2 0 _ hD.1]
  rfl

/-- Witness of C3 (amended): `S` is kept, without its markers and unwrapped. -/
theorem same_line_region_unwrapped_witness :
    removeStartEndWrap exampleRules
        [.mk [] [] (.other 0), .mk ["//dd:startwrap", "// c"] ["//dd:endwrap"] (.other 1),
          .mk [] [] (.other 3)] =
      some [.mk [] [] (.other 0), .mk ["// c"] [] (.other 2), .mk [] [] (.other 3)] :=
  same_line_region_unwrapped exampleRules (.mk [] [] (.other 0))
    (.mk ["//dd:startwrap", "// c"] ["//dd:endwrap"] (.other 1)) (.mk [] [] (.other 3))
    (by unfold Stmt.clean; decide) (by unfold Stmt.clean; decide) (by decide) (by decide)
    (by
      intro rm hrm
      simp only [exampleRules, List.mem_singleton] at hrm
      subst hrm
      rfl)

/-- C2, the claim fails: the statements of a multi-statement region are not deleted;
`[A, B, C, D]` comes back with four statements, `B` and `C` unwrapped and the markers
stripped. -/
theorem region_statements_kept :
    hasLabel exampleRules.dd_startwrap (Stmt.mk ["//dd:startwrap"] [] (.other 1)).Start = true ∧
    hasLabel exampleRules.dd_endwrap (Stmt.mk ["//dd:endwrap"] [] (.other 3)).Start = true ∧
    (Stmt.mk [] [] (.other 0)).clean exampleRules ∧ (Stmt.mk [] [] (.other 1)).clean exampleRules ∧
    removeStartEndWrap exampleRules
        [.mk [] [] (.other 0), .mk ["//dd:startwrap"] [] (.other 1), .mk [] [] (.other 1),
          .mk ["//dd:endwrap"] [] (.other 3)] =
      some [.mk [] [] (.other 0), .mk [] [] (.other 2), .mk [] [] (.other 2),
        .mk [] [] (.other 3)] ∧
    ∀ D1 : Stmt, removeStartEndWrap exampleRules
        [.mk [] [] (.other 0), .mk ["//dd:startwrap"] [] (.other 1), .mk [] [] (.other 1),
          .mk ["//dd:endwrap"] [] (.other 3)] ≠
      some [.mk [] [] (.other 0), D1] := by
  refine ⟨by decide, by decide, by unfold Stmt.clean; decide, by unfold Stmt.clean; decide,
    rfl, ?_⟩
  intro D1 h
  have h2 : (some 4 : Option Nat) = some 2 := congrArg (Option.map List.length) h
  exact absurd h2 (by decide)

/-- C2, amended. For `[A, B, C, D]` with `dd_startwrap` on the leading decorations of `B`,
`dd_endwrap` on the leading decorations of `D` and no other marker, when the unwrap rules
leave leading decorations alone and no remover rule matches the unwrapped `B` and `C`,
`removeStartEndWrap` returns `[A, B1, C1, D1]`: nothing is deleted, `B1` is `B` without
the start marker and unwrapped, `C1` is `C` unwrapped, `D1` is `D` without the end
marker. -/
theorem region_unwrapped (R : Rules) (A B C D : Stmt)
    (hA : A.clean R) (hC : C.clean R)
    (hB : hasLabel R.dd_startwrap B.Start = true)
    (hB1 : hasLabel R.dd_endwrap B.Start = false) (hB2 : hasLabel R.dd_endwrap B.End = false)
    (hD : hasLabel R.dd_endwrap D.Start = true)
    (hD1 : hasLabel R.dd_startwrap D.Start = false)
    (hU : ∀ u ∈ R.unwrappers, ∀ s : Stmt, (u s).Start = s.Start)
    (hrmB : ∀ rm ∈ R.removers,
      rm (R.unwrapStmt (B.replaceStart (removeDecl R.dd_startwrap B.Start))) = false)
    (hrmC : ∀ rm ∈ R.removers, rm (R.unwrapStmt C) = false) :
    removeStartEndWrap R [A, B, C, D] =
      some [A, R.unwrapStmt (B.replaceStart (removeDecl R.dd_startwrap B.Start)),
        R.unwrapStmt C, D.replaceStart (removeDecl R.dd_endwrap D.Start)] := by
  unfold removeStartEndWrap
  show (wrapOuter R 0 4 (WrapState.ofList [A, B, C, D])).map WrapState.toList = _
  rw [wrapOuter_skip R 0 3 _ hA.1, wrapOuter_region R 1 2 _ hB hB2 (by simp [WrapState.ofList])]
  show (match wrapInner R 1 0 3 _ with
    | none => none
    | some st3 => wrapOuter R 2 2 st3).map WrapState.toList = _
  rw [wrapInner_skip R 1 0 2]
  swap
  · exact hasLabel_removeDecl_of_false R.dd_endwrap R.dd_startwrap B.Start hB1
  rw [wrapInner_skip R 1 1 1 _ hC.2.2.1, wrapInner_hit R 1 2 0 _ hD]
  rw [remove_noMatch R 2 1 _ (by
    intro k hk1 hk2
    have hk : k = 1 ∨ k = 2 := by omega
    rcases hk with rfl | rfl
    · exact ⟨by simp [unwrap, WrapState.modify, WrapState.ofList], hrmB⟩
    · exact ⟨by simp [unwrap, WrapState.modify, WrapState.ofList], hrmC⟩)]
  show (wrapOuter R 2 2 _).map WrapState.toList = _
  rw [wrapOuter_skip R 2 1 _ (by
      show hasLabel R.dd_startwrap (R.unwrapStmt C).Start = false
      rw [unwrapStmt_Start R hU]
      exact hC.1)]
  rw [wrapOuter_skip R 3 0]
  swap
  · exact hasLabel_removeDecl_of_false R.dd_startwrap R.dd_endwrap D.Start hD1
  rfl

/-- Witness of C2 (amended): the region statements are kept and unwrapped. -/
theorem region_unwrapped_witness :
    removeStartEndWrap exampleRules
        [.mk [] [] (.other 0), .mk ["//dd:startwrap", "// c"] [] (.other 1), .mk [] [] (.other 1),
          .mk ["//dd:endwrap"] [] (.other 3)] =
      some [.mk [] [] (.other 0), .mk ["// c"] [] (.other 2), .mk [] [] (.other 2),
        .mk [] [] (.other 3)] :=
  region_unwrapped exampleRules (.mk [] [] (.other 0)) (.mk ["//dd:startwrap", "// c"] [] (.other 1))
    (.mk [] [] (.other 1)) (.mk ["//dd:endwrap"] [] (.other 3))
    (by unfold Stmt.clean; decide) (by unfold Stmt.clean; decide) (by decide) (by decide)
    (by decide) (by decide) (by decide)
    (fun u hu s => (exampleRules_keep_decorations u hu s).1)
    (by
      intro rm hrm
      simp only [exampleRules, List.mem_singleton] at hrm
      subst hrm
      rfl)
    (by
      intro rm hrm
      simp only [exampleRules, List.mem_singleton] at hrm
      subst hrm
      rfl)

/-- C17. `removeStartEndInstrument` terminates on every input: when the loop ends in a
recursive call, the list passed on has strictly fewer statements that carry
`dd_endinstrument` (also when the splice keeps the length); the function satisfies the
recursive equation of the source, and any depth bound above the number of such
statements gives the same result. -/
theorem removeStartEndInstrument_terminates (R : Rules) (l : List Stmt) :
    (match scanInstrument R [] 0 l with
      | .ret _ => True
      | .recurse l1 => countEnd R l1 < countEnd R l) ∧
    (removeStartEndInstrument R l =
      match scanInstrument R [] 0 l with
      | .ret l1 => l1
      | .recurse l1 => removeStartEndInstrument R l1) ∧
    ∀ fuel, countEnd R l < fuel →
      removeStartEndInstrumentFuel R fuel l = removeStartEndInstrument R l := by
  refine ⟨?_, removeStartEndInstrument_unfold R l, ?_⟩
  · cases hs : scanInstrument R [] 0 l with
    | ret l1 => trivial
    | recurse l1 => exact scanInstrument_recurse_countEnd R l l1 hs
  · intro fuel hf
    have := countEnd_le_length R l
    exact removeStartEndInstrumentFuel_stable R fuel (l.length + 1) l hf (by omega)

/-- C18. Postcondition of the span remover: no statement of the result of
`removeStartEndInstrument` carries `dd_endinstrument` on its leading or trailing
decorations, and none carries `dd_instrumented` on its leading decorations. -/
theorem span_remover_postcondition (R : Rules) (l : List Stmt) :
    ∀ s ∈ removeStartEndInstrument R l,
      hasLabel R.dd_endinstrument s.Start = false ∧ hasLabel R.dd_endinstrument s.End = false ∧
        hasLabel R.dd_instrumented s.Start = false := by
  intro s hs
  have h := removeStartEndInstrument_post R (countEnd R l) l (Nat.le_refl _) s hs
  exact ⟨h.1.1, h.1.2, h.2⟩

/-- Witness of C18: the statement kept from a list with a span and a tagged statement. -/
theorem span_remover_postcondition_witness :
    hasLabel exampleRules.dd_endinstrument (Stmt.mk ["// c"] [] (.other 2)).Start = false ∧
    hasLabel exampleRules.dd_endinstrument (Stmt.mk ["// c"] [] (.other 2)).End = false ∧
    hasLabel exampleRules.dd_instrumented (Stmt.mk ["// c"] [] (.other 2)).Start = false :=
  span_remover_postcondition exampleRules
    [.mk ["//dd:startinstrument"] [] (.other 1),
      .mk ["//dd:endinstrument", "//dd:instrumented", "// c"] ["//dd:endinstrument"] (.other 2)]
    (.mk ["// c"] [] (.other 2))
    (show Stmt.mk ["// c"] [] (.other 2) ∈ [Stmt.mk ["// c"] [] (.other 2)] from
      List.mem_singleton.2 rfl)

/-- C19. Span start defaults to index 0 and the latest start wins.  When the first
`dd_endinstrument` the loop meets is on the leading decorations of `l[e]`, the loop
splices out `l[s..e)`, where `s` is the value of `start`: `s ≤ e`, no statement after `s`
up to `e` carries `dd_startinstrument` on its leading decorations, and either `l[s]`
carries it or `s = 0` and no statement up to `e` carries it.  With no span-start up to
`e` and no other end marker, the whole result is `l[e..]` with the end marker stripped:
every statement before `e` is deleted. -/
theorem span_start_default_and_latest (R : Rules) (l : List Stmt) (e : Nat) (he : e < l.length)
    (hpre : ∀ k (hk : k < l.length), k < e → (l[k]).noEnd R)
    (hE : hasLabel R.dd_endinstrument (l[e]).Start = true) :
    scanInstrument R [] 0 l =
      .recurse ((l.take (startAfter R 0 0 (l.take (e + 1)))).map (stripInstrumented R) ++
        removeDecoration R.dd_endinstrument l[e] :: l.drop (e + 1)) ∧
    startAfter R 0 0 (l.take (e + 1)) ≤ e ∧
    (∀ k (hk : k < l.length), startAfter R 0 0 (l.take (e + 1)) < k → k ≤ e →
      hasLabel R.dd_startinstrument (l[k]).Start = false) ∧
    ((∃ hs : startAfter R 0 0 (l.take (e + 1)) < l.length,
        hasLabel R.dd_startinstrument (l[startAfter R 0 0 (l.take (e + 1))]).Start = true) ∨
      (startAfter R 0 0 (l.take (e + 1)) = 0 ∧
        ∀ k (hk : k < l.length), k ≤ e → hasLabel R.dd_startinstrument (l[k]).Start = false)) ∧
    ((∀ k (hk : k < l.length), k ≤ e → hasLabel R.dd_startinstrument (l[k]).Start = false) →
      (∀ k (hk : k < l.length), e < k → (l[k]).noEnd R) →
      removeStartEndInstrument R l =
        (removeDecoration R.dd_endinstrument l[e] :: l.drop (e + 1)).map
          (stripInstrumented R)) := by
  obtain ⟨h1, h2⟩ := take_succ_split l e he
  have hp := noEnd_take_of_index R l e hpre
  have hle : startAfter R 0 0 (l.take (e + 1)) ≤ e := by
    have := startAfter_le R (l.take e) l[e] 0 0 (Nat.le_refl 0)
    rw [← h1] at this
    simpa [Nat.min_eq_left (Nat.le_of_lt he)] using this
  have hlen : (l.take (e + 1)).length = e + 1 := by
    simp [Nat.min_eq_left (by omega : e + 1 ≤ l.length)]
  have hget : ∀ k (hk : k < l.length) (hk1 : k ≤ e),
      l[k] ∈ l.take (e + 1) := by
    intro k hk hk1
    have : k < (l.take (e + 1)).length := by omega
    have hh := List.getElem_mem this
    rwa [List.getElem_take] at hh
  refine ⟨?_, hle, ?_, ?_, ?_⟩
  · have key := scanInstrument_leading R (l.take e) l[e] (l.drop (e + 1)) [] 0 hp hE
    rw [← h2, ← h1] at key
    rw [key]
    simp only [List.nil_append, List.length_nil, Nat.zero_add]
    congr 1
    rw [List.take_append_of_le_length (by simpa [Nat.min_eq_left (Nat.le_of_lt he)] using hle),
      List.drop_append_of_le_length (by simp [Nat.min_eq_left (Nat.le_of_lt he)])]
    have hd : List.drop (l.take e).length (List.map (stripInstrumented R) (l.take e)) = [] := by
      simp
    rw [hd, List.nil_append, ← List.map_take, List.take_take, Nat.min_eq_left hle]
  · intro k hk hsk hke
    rcases exists_last_start R (l.take (e + 1)) with hno | ⟨a, y, b, hab, hy, hb⟩
    · exact hno _ (hget k hk hke)
    · have hs : startAfter R 0 0 (l.take (e + 1)) = a.length := by
        rw [hab, startAfter_last R a y b 0 0 hy hb, Nat.zero_add]
      rw [hs] at hsk
      have hk2 : k < (l.take (e + 1)).length := by omega
      have hkb : (l.take (e + 1))[k] ∈ b := by
        have hb2 : b = (l.take (e + 1)).drop (a.length + 1) := by
          rw [hab]
          simp
        rw [hb2]
        have hk3 : k - (a.length + 1) < ((l.take (e + 1)).drop (a.length + 1)).length := by
          rw [List.length_drop]
          omega
        have hm := List.getElem_mem hk3
        rw [List.getElem_drop] at hm
        have hidx : a.length + 1 + (k - (a.length + 1)) = k := by omega
        simpa [hidx] using hm
      rw [List.getElem_take] at hkb
      exact hb _ hkb
  · rcases exists_last_start R (l.take (e + 1)) with hno | ⟨a, y, b, hab, hy, hb⟩
    · right
      exact ⟨startAfter_noStart R _ 0 0 hno, fun k hk hke => hno _ (hget k hk hke)⟩
    · left
      have hs : startAfter R 0 0 (l.take (e + 1)) = a.length := by
        rw [hab, startAfter_last R a y b 0 0 hy hb, Nat.zero_add]
      have hal : a.length < l.length := by omega
      refine ⟨by omega, ?_⟩
      have hy2 : l[a.length] = y := by
        have h3 : a.length < (l.take (e + 1)).length := by omega
        have h4 : (l.take (e + 1))[a.length] = y := List.getElem_of_append hab rfl
        rw [List.getElem_take] at h4
        exact h4
      simp only [hs, hy2, hy]
  · intro hno hpost
    have hq : ∀ t ∈ l.drop (e + 1), t.noEnd R := by
      intro t ht
      rw [← List.take_length (l.drop (e + 1))] at ht
      obtain ⟨k, hk, hk1, _, rfl⟩ := mem_take_drop l (e + 1) _ t ht
      exact hpost k hk (by omega)
    have key := removeStartEndInstrument_leading R (l.take e) l[e] (l.drop (e + 1)) hp hE hq
    rw [← h2, ← h1] at key
    rw [key, startAfter_noStart R (l.take (e + 1)) 0 0]
    · simp
    · intro t ht
      rw [← List.drop_zero l] at ht
      obtain ⟨k, hk, _, hk2, rfl⟩ := mem_take_drop l 0 (e + 1) t ht
      exact hno k hk (by omega)

/-- Witness of C19: a leading end marker at index 2 and no span-start: the two statements
before it are deleted. -/
theorem span_start_default_and_latest_witness :
    removeStartEndInstrument exampleRules
        [.mk [] [] (.other 0), .mk [] [] (.other 1),
          .mk ["//dd:endinstrument", "// c"] [] (.other 2), .mk [] [] (.other 3)] =
      [.mk ["// c"] [] (.other 2), .mk [] [] (.other 3)] :=
  ((span_start_default_and_latest exampleRules
    [.mk [] [] (.other 0), .mk [] [] (.other 1),
      .mk ["//dd:endinstrument", "// c"] [] (.other 2), .mk [] [] (.other 3)] 2 (by decide)
    (by
      intro k hk hk2
      interval_cases k <;> exact ⟨rfl, rfl⟩)
    rfl).2.2.2.2
    (by
      intro k hk hk2
      have hk : k < 4 := hk
      interval_cases k <;> rfl)
    (by
      intro k hk hk2
      have hk : k < 4 := hk
      interval_cases k
      exact ⟨rfl, rfl⟩)).trans rfl

/-- C12, the code at two failing inputs.  In the region `[S, G, G)` closed by `E` both
`G` match the remover, and the second `G` is still in the result: after a deletion the
index moves on and skips the statement that took the freed slot.  In the region `[G, X)`
closed by `E`, where `G` and `E` match the remover, `E` is deleted although it lies
outside the region: the upper bound is not lowered after a deletion. -/
theorem remove_skips_and_overruns :
    exampleRemover (.mk [] [] (.other 9)) = true ∧
    removeStartEndWrap exampleRules
        [.mk ["//dd:startwrap"] [] (.other 0), .mk [] [] (.other 9), .mk [] [] (.other 9),
          .mk ["//dd:endwrap"] [] (.other 3), .mk [] [] (.other 4)] =
      some [.mk [] [] (.other 0), .mk [] [] (.other 9), .mk [] [] (.other 3),
        .mk [] [] (.other 4)] ∧
    removeStartEndWrap exampleRules
        [.mk ["//dd:startwrap"] [] (.other 9), .mk [] [] (.other 0),
          .mk ["//dd:endwrap"] [] (.other 9), .mk [] [] (.other 4)] =
      some [.mk [] [] (.other 0), .mk [] [] (.other 4)] := by
  exact ⟨rfl, rfl, rfl⟩

/-- C13, the code at the failing input.  In `[S1, E1, X, S2, E2]` with two regions `[S1]`
and `[S2]`, the statement `X` between them (`other 1`, a statement the unwrap rule
rewrites) comes back rewritten (`other 2`): the search for `dd_endwrap` does not stop at
the first end marker, and at `E2` the slice from `S1` up to `E2` is unwrapped. -/
theorem unwrap_reaches_between_regions :
    removeStartEndWrap exampleRules
        [.mk ["//dd:startwrap"] [] (.other 0), .mk ["//dd:endwrap"] [] (.other 3),
          .mk [] [] (.other 1), .mk ["//dd:startwrap"] [] (.other 0),
          .mk ["//dd:endwrap"] [] (.other 3)] =
      some [.mk [] [] (.other 0), .mk [] [] (.other 3), .mk [] [] (.other 2),
        .mk [] [] (.other 0), .mk [] [] (.other 3)] := by
  rfl

/-- C16, the code at two failing inputs: the run ends in an index out of range.  In
`[A, G, W]` the remover deletes `G`, the outer loop then reads `W` from the slot the
shortened slice no longer covers, and `remove` evaluates `l[2]` on a slice of length 2.
In `[S, G, G, G, E]` the inner `remove` deletes two statements and evaluates `l[3]` on a
slice of length 3. -/
theorem wrap_index_out_of_range :
    removeStartEndWrap exampleRules
        [.mk [] [] (.other 0), .mk ["//dd:startwrap"] [] (.other 9),
          .mk ["//dd:endwrap", "//dd:startwrap"] ["//dd:endwrap"] (.other 1)] = none ∧
    removeStartEndWrap exampleRules
        [.mk ["//dd:startwrap"] [] (.other 0), .mk [] [] (.other 9), .mk [] [] (.other 9),
          .mk [] [] (.other 9), .mk ["//dd:endwrap"] [] (.other 3)] = none := by
  exact ⟨rfl, rfl⟩

/-- C14, the claim fails: with the rules `[exampleUnwrap, exampleUnwrapNext]` the first
rule rewrites the region statement `other 1` into `other 2`, and the second rule is then
applied to the same statement and rewrites it into `other 3`. -/
theorem later_rule_fires_after_rewrite :
    exampleUnwrap (.mk [] [] (.other 1)) = .mk [] [] (.other 2) ∧
    removeStartEndWrap chainRules [.mk ["//dd:startwrap"] ["//dd:endwrap"] (.other 1)] =
      some [.mk [] [] (.other 3)] := by
  exact ⟨rfl, rfl⟩

/-- C14, amended. The closure `unwrap` runs every rule of the list, in list order, over
every statement of the slice, each rule on the statement as the earlier rules left it:
a statement of the slice becomes the result of all the rules applied one after the
other, a statement outside the slice is not changed, and the slice itself is not
changed.  Whether an earlier rule has rewritten the statement plays no part. -/
theorem unwrap_runs_every_rule (R : Rules) (lo n : Nat) (st : WrapState)
    (hd : ∀ a b, lo ≤ a → a < b → b < lo + n → st.arr a ≠ st.arr b) :
    (unwrap R lo n st).arr = st.arr ∧ (unwrap R lo n st).len = st.len ∧
    (∀ k, lo ≤ k → k < lo + n →
      (unwrap R lo n st).heap (st.arr k) =
        R.unwrappers.foldl (fun s u => u s) (st.heap (st.arr k))) ∧
    (∀ p, (∀ k, lo ≤ k → k < lo + n → st.arr k ≠ p) →
      (unwrap R lo n st).heap p = st.heap p) ∧
    ∀ (us : List (Stmt → Stmt)) (u : Stmt → Stmt) (s : Stmt),
      Rules.unwrapStmt { R with unwrappers := us ++ [u] } s =
        u (Rules.unwrapStmt { R with unwrappers := us } s) := by
  refine ⟨(unwrap_arr_len R n lo st).1, (unwrap_arr_len R n lo st).2, ?_, ?_, ?_⟩
  · intro k h1 h2
    exact (unwrap_heap R n lo st hd (st.arr k)).1 ⟨k, h1, h2, rfl⟩
  · intro p hp
    exact (unwrap_heap R n lo st hd p).2 hp
  · intro us u s
    simp [Rules.unwrapStmt, List.foldl_append]

/-- Witness of C14 (amended): both rules are run over the two statements of the slice. -/
theorem unwrap_runs_every_rule_witness :
    (unwrap chainRules 0 2
        (WrapState.ofList [.mk [] [] (.other 1), .mk [] [] (.other 2), .mk [] [] (.other 1)])).heap 0
      = .mk [] [] (.other 3) ∧
    (unwrap chainRules 0 2
        (WrapState.ofList [.mk [] [] (.other 1), .mk [] [] (.other 2), .mk [] [] (.other 1)])).heap 2
      = .mk [] [] (.other 1) :=
  have h := unwrap_runs_every_rule chainRules 0 2
    (WrapState.ofList [.mk [] [] (.other 1), .mk [] [] (.other 2), .mk [] [] (.other 1)])
    (fun a b _ hab _ => Nat.ne_of_lt hab)
  ⟨(h.2.2.1 0 (by decide) (by decide)).trans rfl,
    (h.2.2.2.1 2 (fun k _ hk => by
      have hk : k < 2 := by omega
      exact Nat.ne_of_lt hk)).trans rfl⟩

/-- C15, the claim fails: the region-start marker of an unmatched region is taken out of
the leading decorations of its statement, the list does not come back as it was. -/
theorem unmatched_start_is_stripped :
    hasLabel exampleRules.dd_startwrap
      (Stmt.mk ["//dd:startwrap", "// c"] [] (.other 1)).Start = true ∧
    removeStartEndWrap exampleRules
        [.mk ["//dd:startwrap", "// c"] [] (.other 1), .mk [] [] (.other 3)] =
      some [.mk ["// c"] [] (.other 1), .mk [] [] (.other 3)] ∧
    (Stmt.mk ["// c"] [] (.other 1)).Start ≠
      (Stmt.mk ["//dd:startwrap", "// c"] [] (.other 1)).Start := by
  refine ⟨by decide, rfl, by decide⟩

/-- C15, amended. In a list where no statement carries `dd_endwrap`, on leading or on
trailing decorations, `removeStartEndWrap` removes no statement and applies no unwrap and
no remover rule: the result is the list itself, in order, each statement with the
`dd_startwrap` entries taken out of its leading decorations and nothing else changed (a
statement without the marker is returned as it was). -/
theorem unmatched_region_start (R : Rules) (l : List Stmt)
    (h : ∀ s ∈ l, hasLabel R.dd_endwrap s.Start = false ∧ hasLabel R.dd_endwrap s.End = false) :
    removeStartEndWrap R l =
      some (l.map (fun s => s.replaceStart (removeDecl R.dd_startwrap s.Start))) ∧
    ∀ s ∈ l, (s.replaceStart (removeDecl R.dd_startwrap s.Start)).End = s.End ∧
      (s.replaceStart (removeDecl R.dd_startwrap s.Start)).kind = s.kind ∧
      (hasLabel R.dd_startwrap s.Start = false →
        s.replaceStart (removeDecl R.dd_startwrap s.Start) = s) := by
  constructor
  · unfold removeStartEndWrap
    rw [wrapOuter_noEnd R l.length 0 (WrapState.ofList l) (by simp [WrapState.ofList])
      (fun _ => rfl) (by
        intro p
        simp only [WrapState.ofList]
        by_cases hp : p < l.length
        · rw [List.getD_eq_getElem _ _ hp]
          exact h _ (List.getElem_mem _)
        · rw [List.getD_eq_default _ _ (by omega)]
          exact ⟨rfl, rfl⟩)]
    simp only [Option.map_some', Option.some.injEq]
    apply List.ext_getElem
    · simp [WrapState.toList, WrapState.ofList]
    · intro k h1 h2
      have hk : k < l.length := by simpa using h2
      simp [WrapState.toList, WrapState.ofList, hk, List.getElem?_eq_getElem hk]
  · intro s _
    exact ⟨rfl, rfl, replaceStart_of_noStart R s⟩

/-- Witness of C15 (amended): the unmatched start marker is stripped, nothing else. -/
theorem unmatched_region_start_witness :
    removeStartEndWrap exampleRules
        [.mk [] [] (.other 9), .mk ["//dd:startwrap", "// c"] ["// d"] (.other 1),
          .mk [] [] (.other 3)] =
      some [.mk [] [] (.other 9), .mk ["// c"] ["// d"] (.other 1), .mk [] [] (.other 3)] :=
  ((unmatched_region_start exampleRules
    [.mk [] [] (.other 9), .mk ["//dd:startwrap", "// c"] ["// d"] (.other 1),
      .mk [] [] (.other 3)]
    (by
      intro s hs
      simp only [List.mem_cons, List.mem_singleton, List.not_mem_nil, or_false] at hs
      rcases hs with rfl | rfl | rfl <;> exact ⟨rfl, rfl⟩)).1).trans rfl

/-- C11, the code at the failing input.  In `[A, G, W, X]` the region `[G]` is closed on
the leading decorations of `W`, which opens a region of its own, closed on its trailing
decorations: the markers are well-paired.  The remover deletes `G`; the outer loop goes on
at the next index of the original slice and never visits `W`, which took the freed slot:
`W` comes back with its region-start and its region-end marker. -/
theorem region_skipped_after_deletion :
    removeStartEndWrap exampleRules
        [.mk [] [] (.other 0), .mk ["//dd:startwrap"] [] (.other 9),
          .mk ["//dd:endwrap", "//dd:startwrap"] ["//dd:endwrap"] (.other 1),
          .mk [] [] (.other 3)] =
      some [.mk [] [] (.other 0), .mk ["//dd:startwrap"] ["//dd:endwrap"] (.other 1),
        .mk [] [] (.other 3)] ∧
    hasLabel exampleRules.dd_startwrap
      (Stmt.mk ["//dd:startwrap"] ["//dd:endwrap"] (.other 1)).Start = true ∧
    hasLabel exampleRules.dd_endwrap
      (Stmt.mk ["//dd:startwrap"] ["//dd:endwrap"] (.other 1)).End = true := by
  exact ⟨rfl, by decide, by decide⟩

/-- What the single pass does reach.  Let the region markers of `l` be paired:
`dd_startwrap` only on leading decorations, a trailing `dd_endwrap` only on a statement
with a leading `dd_startwrap`,
and every leading `dd_endwrap` at or after an open region start.  When the unwrap rules
leave decorations alone, no remover rule matches a statement of `l` (as given or
edited by the pass) and no entry starts with both markers, `removeStartEndWrap` returns a
list of the same length in which no statement carries `dd_startwrap` or `dd_endwrap`, on
leading or on trailing decorations.  The scan is one pass over the indices of the list;
adjacent and nested regions are covered. -/
theorem every_region_processed (R : Rules) (l : List Stmt)
    (hU : ∀ u ∈ R.unwrappers, ∀ s : Stmt, (u s).Start = s.Start ∧ (u s).End = s.End)
    (hRm : ∀ rm ∈ R.removers, ∀ p (hp : p < l.length) (s : Stmt),
      Touched R R.unwrappers l[p] s → rm s = false)
    (hd : ∀ d : String, HasPrefix d R.dd_startwrap = true → HasPrefix d R.dd_endwrap = false)
    (ha : ∀ s ∈ l, hasLabel R.dd_startwrap s.End = false)
    (hb : ∀ s ∈ l, hasLabel R.dd_endwrap s.End = true → hasLabel R.dd_startwrap s.Start = true)
    (hc : ∀ k (hk : k < l.length), hasLabel R.dd_endwrap (l[k]).Start = true →
      ∃ i, ∃ hi : i < l.length, i ≤ k ∧ (l[i]).openStart R) :
    ∃ out, removeStartEndWrap R l = some out ∧ out.length = l.length ∧
      ∀ s ∈ out, hasLabel R.dd_startwrap s.Start = false ∧ hasLabel R.dd_startwrap s.End = false ∧
        hasLabel R.dd_endwrap s.Start = false ∧ hasLabel R.dd_endwrap s.End = false := by
  obtain ⟨st1, h1, hB1, _, hP1, hP2, hP3, hP4⟩ :=
    wrapOuter_strip R l hU hRm hd l.length 0 (WrapState.ofList l) (WrapBase.atStart R l)
      (by omega)
  have h0 : ∀ p (hp : p < l.length), (WrapState.ofList l).heap p = l[p] := by
    intro p hp
    simp only [WrapState.ofList, List.getD_eq_getElem _ _ hp]
  refine ⟨st1.toList, ?_, ?_, ?_⟩
  · unfold removeStartEndWrap
    rw [h1]
    rfl
  · simp [WrapState.toList, hB1.len_eq]
  · intro s hs
    simp only [WrapState.toList, List.mem_map, List.mem_range] at hs
    obtain ⟨p, hp, rfl⟩ := hs
    rw [hB1.len_eq] at hp
    rw [hB1.arr_id]
    have hmem : l[p] ∈ l := List.getElem_mem _
    refine ⟨hP1 p (by omega) (by omega), ?_, ?_, ?_⟩
    · cases h : hasLabel R.dd_startwrap (st1.heap p).End
      · rfl
      · have := hP4 p h
        rw [h0 p hp, ha _ hmem] at this
        cases this
    · cases h : hasLabel R.dd_endwrap (st1.heap p).Start
      · rfl
      · exfalso
        have h3 := hP3 p (by omega) (by omega) h
        rw [h0 p hp] at h3
        obtain ⟨i, hi, hik, hopen⟩ := hc p hp h3.1
        have := h3.2 i (by omega) hik
        rw [h0 i hi] at this
        exact this hopen
    · cases h : hasLabel R.dd_endwrap (st1.heap p).End
      · rfl
      · exfalso
        have h2 := hP2 p (by omega) (by omega) h
        rw [h0 p hp] at h2
        rw [hb _ hmem h2.2] at h2
        cases h2.1

/-- An instance of `every_region_processed`: two adjacent regions, the first closed on the
leading decorations of the statement that opens the second. -/
theorem every_region_processed_witness :
    ∃ out, removeStartEndWrap exampleRules
        [.mk ["//dd:startwrap"] [] (.other 1),
          .mk ["//dd:endwrap", "//dd:startwrap"] ["//dd:endwrap"] (.other 1),
          .mk [] [] (.other 3)] = some out ∧
      out.length = 3 ∧
      ∀ s ∈ out, hasLabel exampleRules.dd_startwrap s.Start = false ∧
        hasLabel exampleRules.dd_startwrap s.End = false ∧
        hasLabel exampleRules.dd_endwrap s.Start = false ∧
        hasLabel exampleRules.dd_endwrap s.End = false :=
  every_region_processed exampleRules
    [.mk ["//dd:startwrap"] [] (.other 1),
      .mk ["//dd:endwrap", "//dd:startwrap"] ["//dd:endwrap"] (.other 1),
      .mk [] [] (.other 3)]
    exampleRules_keep_decorations
    (by
      intro rm hrm p hp s hs
      simp only [exampleRules, List.mem_singleton] at hrm
      subst hrm
      refine exampleRemover_of_touched ?_ hs
      have hp : p < 3 := hp
      interval_cases p <;> rfl)
    exampleRules_markers_apart
    (by
      intro s hs
      simp only [List.mem_cons, List.mem_singleton, List.not_mem_nil, or_false] at hs
      rcases hs with rfl | rfl | rfl <;> rfl)
    (by
      intro s hs
      simp only [List.mem_cons, List.mem_singleton, List.not_mem_nil, or_false] at hs
      rcases hs with rfl | rfl | rfl
      · intro h; exact absurd h (by decide)
      · intro _; rfl
      · intro h; exact absurd h (by decide))
    (by
      intro k hk h
      have hk : k < 3 := hk
      interval_cases k
      · exact absurd (show false = true from h) (by decide)
      · exact ⟨0, by decide, by decide, ⟨rfl, rfl⟩⟩
      · exact absurd (show false = true from h) (by decide))

end Orchestrion
